import Mathlib

/-!
Verification of the adage-backend data-import pipelines:
`import_gene_signature_participation.py` (weight-matrix parser, heavy-gene
classifier, participation upserter) and `import_gene_network.py` (gene-gene
network importer).

Modelling conventions:
* Python `dict`s are association lists with overwrite-on-insert (`dinsert`),
  which mirrors insertion order and key uniqueness of CPython dicts.
* Python floats are idealised as rationals (ℚ); the partial `float(tok)`
  conversion is an abstract parameter `pf : String → Option ℚ`.
* `statistics.stdev` computes the sample standard deviation σ = √variance.
  Comparisons `w > mean + 2.5*σ` are encoded equivalently (see
  `heavy_threshold_encoding`) as `mean < w ∧ (25/4) * var < (w - mean)^2`,
  which is decidable over ℚ.
* Database tables are lists of rows; Django's `transaction.atomic` is
  modelled by run functions that restore the initial table on error.
* Input files are given as lists of tokenized lines (the result of
  splitting each line on tab characters).
-/

namespace Adage

deriving instance DecidableEq for Except

/-! ## Association-list dictionaries (Python `dict`) -/

/-- Keys of an association list, in order. -/
def keysOf {α β : Type} (l : List (α × β)) : List α := l.map Prod.fst

/-- First-match lookup, mirroring `d[k]` / `k in d`. -/
def dlookup {α β : Type} [DecidableEq α] (k : α) : List (α × β) → Option β
  | [] => none
  | p :: rest => if p.1 = k then some p.2 else dlookup k rest

/-- `d[k] = v`: overwrite in place if the key exists, else append at the end
(CPython dict assignment semantics). -/
def dinsert {α β : Type} [DecidableEq α] (k : α) (v : β) : List (α × β) → List (α × β)
  | [] => [(k, v)]
  | p :: rest => if p.1 = k then (k, v) :: rest else p :: dinsert k v rest

/-- Gene dictionary: gene systematic name → weight. -/
abbrev GeneDict := List (String × ℚ)

/-- Weight matrix / heavy-gene dict: name → gene dictionary. -/
abbrev WMatrix := List (String × GeneDict)

/-- `weight_matrix[node_name][gene_name] = w`: update the gene dict stored
under key `n`.  (The Python code only ever does this for a key that is
present; on an absent key this model is a no-op where Python would raise
`KeyError`, a branch that is unreachable in all uses below.) -/
def updAt (n g : String) (w : ℚ) (m : WMatrix) : WMatrix :=
  m.map fun p => if p.1 = n then (p.1, dinsert g w p.2) else p

/-! ## `get_weight_matrix` (weight-matrix parser) -/

/-- Errors raised by `get_weight_matrix`: wrong column count (with the
1-based line number, as in the Python message), or a weight token on which
`float()` raises `ValueError` (the Python exception cites the token, not the
line), or a data line with no tokens at all (Python would raise `IndexError`
on `tokens[0]`; unreachable for real tab-split lines, which are nonempty). -/
inductive WMErr : Type
  | badColumns (lineNum : ℕ)
  | badFloat (token : String)
  | emptyLine (lineNum : ℕ)
deriving DecidableEq

/-- `[float(x) for x in tokens]`: left-to-right, failing on the first token
that does not parse. -/
def parseWeights (pf : String → Option ℚ) : List String → Except String (List ℚ)
  | [] => .ok []
  | t :: ts =>
    match pf t with
    | none => .error t
    | some q =>
      match parseWeights pf ts with
      | .error e => .error e
      | .ok ws => .ok (q :: ws)

/-- The inner loop `for idx, w in enumerate(weights): weight_matrix[nodes[idx]][gene_name] = w`. -/
def applyLine (nodes : List String) (gene : String) (ws : List ℚ) (m : WMatrix) : WMatrix :=
  (nodes.zip ws).foldl (fun m p => updAt p.1 gene p.2 m) m

/-- `for node_name in nodes: weight_matrix[node_name] = dict()`. -/
def initMatrix (nodes : List String) : WMatrix :=
  nodes.foldl (fun m n => dinsert n [] m) []

/-- Data-line loop of `get_weight_matrix`, starting at line number `lineNum`. -/
def gwmLoop (pf : String → Option ℚ) (nodes : List String) (numColumns : ℕ) :
    ℕ → WMatrix → List (List String) → Except WMErr WMatrix
  | _, m, [] => .ok m
  | lineNum, m, tokens :: rest =>
    if numColumns ≠ tokens.length then .error (.badColumns lineNum)
    else
      match tokens with
      | [] => .error (.emptyLine lineNum)
      | gene :: wtoks =>
        match parseWeights pf wtoks with
        | .error t => .error (.badFloat t)
        | .ok ws => gwmLoop pf nodes numColumns (lineNum + 1) (applyLine nodes gene ws m) rest

/-- `get_weight_matrix(file_handle)`: line 1 names the nodes (`tokens[1:]`)
and fixes `num_columns`; the remaining lines are data lines. -/
def get_weight_matrix (pf : String → Option ℚ) (file : List (List String)) :
    Except WMErr WMatrix :=
  match file with
  | [] => .ok []
  | header :: rest =>
    gwmLoop pf (header.drop 1) header.length 2 (initMatrix (header.drop 1)) rest

/-! ## `find_heavy_genes` (heavy-gene classifier) -/

/-- `statistics.mean`. -/
def qmean (l : List ℚ) : ℚ := l.sum / l.length

/-- Square of `statistics.stdev`: the sample variance, Σ(x−mean)²/(n−1). -/
def sampleVar (l : List ℚ) : ℚ :=
  (l.map (fun x => (x - qmean l) ^ 2)).sum / ((l.length : ℚ) - 1)

/-- `w > mean + 2.5*std_dev`, encoded without the square root
(equivalent by `heavy_threshold_encoding`). -/
def heavyPos (mean var w : ℚ) : Prop := mean < w ∧ 25 / 4 * var < (w - mean) ^ 2

/-- `w < mean - 2.5*std_dev`, encoded without the square root. -/
def heavyNeg (mean var w : ℚ) : Prop := w < mean ∧ 25 / 4 * var < (w - mean) ^ 2

instance (mean var w : ℚ) : Decidable (heavyPos mean var w) :=
  inferInstanceAs (Decidable (mean < w ∧ 25 / 4 * var < (w - mean) ^ 2))

instance (mean var w : ℚ) : Decidable (heavyNeg mean var w) :=
  inferInstanceAs (Decidable (w < mean ∧ 25 / 4 * var < (w - mean) ^ 2))

/-- `statistics.mean`/`statistics.stdev` raise `StatisticsError` when a node
has fewer than two weights. -/
inductive FHGErr : Type
  | insufficientSamples (node : String)
deriving DecidableEq

/-- The gene loop of `find_heavy_genes` over one node's gene dict. -/
def fhgNodeFold (posName negName : String) (mean var : ℚ) (gws : GeneDict)
    (hg : WMatrix) : WMatrix :=
  gws.foldl
    (fun hg p =>
      if heavyPos mean var p.2 then updAt posName p.1 p.2 hg
      else if heavyNeg mean var p.2 then updAt negName p.1 p.2 hg
      else hg)
    hg

/-- Node loop of `find_heavy_genes`. -/
def fhgLoop : WMatrix → WMatrix → Except FHGErr WMatrix
  | hg, [] => .ok hg
  | hg, (node, gws) :: rest =>
    let weights := gws.map Prod.snd
    if weights.length < 2 then .error (.insufficientSamples node)
    else
      let mean := qmean weights
      let var := sampleVar weights
      let hg1 := dinsert (node ++ "pos") [] hg
      let hg2 := dinsert (node ++ "neg") [] hg1
      fhgLoop (fhgNodeFold (node ++ "pos") (node ++ "neg") mean var gws hg2) rest

/-- `find_heavy_genes(weight_matrix)`. -/
def find_heavy_genes (wm : WMatrix) : Except FHGErr WMatrix := fhgLoop [] wm

/-- Genes of one node classified positive. -/
def filterPos (mean var : ℚ) (gws : GeneDict) : GeneDict :=
  gws.filter fun p => decide (heavyPos mean var p.2)

/-- Genes of one node classified negative. -/
def filterNeg (mean var : ℚ) (gws : GeneDict) : GeneDict :=
  gws.filter fun p => decide (heavyNeg mean var p.2)

/-- Genes of one node in neither bucket. -/
def filterMid (mean var : ℚ) (gws : GeneDict) : GeneDict :=
  gws.filter fun p => decide (¬ heavyPos mean var p.2 ∧ ¬ heavyNeg mean var p.2)

/-! ## `update_db` / `create_or_update_participation` (participation upserter) -/

/-- Outcome of `Gene.objects.get(systematic_name=...)`: exactly one gene,
none (`Gene.DoesNotExist`), or several (`Gene.MultipleObjectsReturned`). -/
inductive GeneRes : Type
  | found (gid : ℕ)
  | notFound
  | multiple
deriving DecidableEq

/-- The pre-existing catalog rows consulted by the importers:
ML models and participation types by exact key, signatures by
(ML-model title, signature name), genes by systematic name. -/
structure Catalog : Type where
  hasModel : String → Bool
  hasPType : String → Bool
  sigOf : String → String → Option ℕ
  geneOf : String → GeneRes

/-- One row of the `Participation` table.  The participation type is kept
by name; signature and gene are catalog row ids. -/
structure PartRow : Type where
  signature : ℕ
  gene : ℕ
  ptype : String
  weight : ℚ
deriving DecidableEq

abbrev PartDB := List PartRow

/-- Does a row have the given (signature, gene, participation_type) key? -/
def keyMatch (r : PartRow) (s g : ℕ) (t : String) : Prop :=
  r.signature = s ∧ r.gene = g ∧ r.ptype = t

instance (r : PartRow) (s g : ℕ) (t : String) : Decidable (keyMatch r s g t) := by
  unfold keyMatch; infer_instance

/-- Weight of the first row matching a key, if any. -/
def dbLookup (s g : ℕ) (t : String) : PartDB → Option ℚ
  | [] => none
  | r :: rest => if keyMatch r s g t then some r.weight else dbLookup s g t rest

/-- `Participation.objects.update_or_create(signature, gene,
participation_type, defaults={weight})`: update the weight of the row with
this key if one exists, else create the row.  (Under the table's uniqueness
invariant at most one row can match; on several matches Django would raise
where this model updates the first.) -/
def upsert (s g : ℕ) (t : String) (w : ℚ) : PartDB → PartDB
  | [] => [⟨s, g, t, w⟩]
  | r :: rest =>
    if keyMatch r s g t then ⟨s, g, t, w⟩ :: rest else r :: upsert s g t w rest

/-- The gene loop of `update_db` over one signature's bucket: unresolvable
genes are logged and skipped, resolved genes are upserted. -/
def importBucket (cat : Catalog) (sig : ℕ) (pt : String) (db : PartDB)
    (gws : GeneDict) : PartDB :=
  gws.foldl
    (fun db p =>
      match cat.geneOf p.1 with
      | .found gid => upsert sig gid pt p.2 db
      | _ => db)
    db

/-- `update_db(ml_model, participation_type, heavy_genes)`: a missing
signature raises; the error carries the name of the missing signature and
the partially written table (discarded on rollback by the caller). -/
def update_db (cat : Catalog) (ml pt : String) :
    PartDB → WMatrix → Except (String × PartDB) PartDB
  | db, [] => .ok db
  | db, (sigName, gws) :: rest =>
    match cat.sigOf ml sigName with
    | none => .error (sigName, db)
    | some sig => update_db cat ml pt (importBucket cat sig pt db gws) rest

/-- Fatal errors of `create_or_update_participation`. -/
inductive PErr : Type
  | modelNotFound
  | ptypeNotFound
  | signatureNotFound (sigName : String)
  | wmErr (e : WMErr)
  | fhgErr (e : FHGErr)
deriving DecidableEq

/-- `create_or_update_participation(file_handle, ml_model,
participation_type)`: validate the model and participation type, read the
weight matrix, classify heavy genes, then import inside
`transaction.atomic()` — an error from `update_db` discards the partial
writes it carries. -/
def create_or_update_participation (cat : Catalog) (pf : String → Option ℚ)
    (ml pt : String) (file : List (List String)) (db : PartDB) :
    Except PErr PartDB :=
  if cat.hasModel ml = false then .error .modelNotFound
  else if cat.hasPType pt = false then .error .ptypeNotFound
  else
    match get_weight_matrix pf file with
    | .error e => .error (.wmErr e)
    | .ok wm =>
      match find_heavy_genes wm with
      | .error e => .error (.fhgErr e)
      | .ok hg =>
        match update_db cat ml pt db hg with
        | .error (sigName, _) => .error (.signatureNotFound sigName)
        | .ok db2 => .ok db2

/-- The observable effect of one invocation on the `Participation` table:
on any fatal error the transaction is rolled back, so the table keeps its
initial state. -/
def runParticipation (cat : Catalog) (pf : String → Option ℚ)
    (ml pt : String) (file : List (List String)) (db : PartDB) :
    Option PErr × PartDB :=
  match create_or_update_participation cat pf ml pt file db with
  | .error e => (some e, db)
  | .ok db2 => (none, db2)

/-- The (signature, gene, participation_type) key of a `Participation` row. -/
def rowKey (r : PartRow) : ℕ × ℕ × String := (r.signature, r.gene, r.ptype)

/-- Key-uniqueness invariant of the `Participation` table: at most one row
per (signature, gene, participation_type) triple. -/
def PartUnique (db : PartDB) : Prop := (db.map rowKey).Nodup

/-! ## `check_and_import` (gene-gene network importer) -/

/-- The `MLModel` fields the network importer reads. -/
structure MLModelN : Type where
  g2g_edge_cutoff : ℚ
  directed_g2g_edge : Bool

/-- One row of the `Edge` table for the model being imported. -/
structure Edge : Type where
  gene1 : ℕ
  gene2 : ℕ
  weight : ℚ
deriving DecidableEq

/-- Fatal errors of `check_and_import`, mirroring the raised messages. -/
inductive NetErr : Type
  | badColumns (lineNum : ℕ)
  | selfLoop (lineNum : ℕ)
  | badFloat (lineNum : ℕ) (token : String)
  | outOfRange (lineNum : ℕ) (token : String)
  | dupPair (lineNum : ℕ) (g1 g2 : String)
  | notUnique (lineNum : ℕ) (g1 g2 : String)
deriving DecidableEq

/-- `unique_together(ml_model, gene1, gene2)`: the ordered triple must be
absent, and for an undirected model, the reversed triple too. -/
def unique_together (M : MLModelN) (db : List Edge) (g1 g2 : ℕ) : Bool :=
  if db.any fun e => e.gene1 = g1 ∧ e.gene2 = g2 then false
  else if M.directed_g2g_edge then true
  else ! db.any fun e => e.gene1 = g2 ∧ e.gene2 = g1

/-- Loop state of `check_and_import`: the `gene_pairs_in_file` set (as the
list of `tokens[0] + '\t' + tokens[1]` strings), the pending bulk
`records`, and the flushed `Edge` rows for this model. -/
structure NetState : Type where
  pairs : List String
  records : List Edge
  db : List Edge
deriving DecidableEq

def BULK_SIZE : ℕ := 2000

/-- `if len(records) == BULK_SIZE: Edge.objects.bulk_create(records)`. -/
def flushIfFull (st : NetState) : NetState :=
  if st.records.length = BULK_SIZE then { st with db := st.db ++ st.records, records := [] }
  else st

/-- The line loop of `check_and_import`.  `find_gene`'s `cached_genes` memo
is dropped: `geneOf` is a pure function, so the cache is semantically
transparent.  Checks appear in source order: column count, self loop, float
parse of sign+magnitude, range, cutoff skip, in-file duplicate pair
(reversed too when undirected), record the pair, resolve the two genes
(skip the line on failure), uniqueness against already-flushed rows, batch
append with flush at `BULK_SIZE`. -/
def netLoop (pf : String → Option ℚ) (M : MLModelN) (geneOf : String → GeneRes)
    (checkUnique : Bool) :
    ℕ → NetState → List (List String) → Except NetErr NetState
  | _, st, [] => .ok st
  | lineNum, st, tokens :: rest =>
    if lineNum = 1 then netLoop pf M geneOf checkUnique (lineNum + 1) st rest
    else if 4 ≠ tokens.length then .error (.badColumns lineNum)
    else
      match tokens with
      | [g1s, g2s, wtok, stok] =>
        if g1s = g2s then .error (.selfLoop lineNum)
        else
          match pf (stok ++ wtok) with
          | none => .error (.badFloat lineNum (stok ++ wtok))
          | some w =>
            if w < -1 ∨ 1 < w then .error (.outOfRange lineNum (stok ++ wtok))
            else if |w| < M.g2g_edge_cutoff then
              netLoop pf M geneOf checkUnique (lineNum + 1) st rest
            else if (g1s ++ "\t" ++ g2s) ∈ st.pairs then
              .error (.dupPair lineNum g1s g2s)
            else if M.directed_g2g_edge = false ∧ (g2s ++ "\t" ++ g1s) ∈ st.pairs then
              .error (.dupPair lineNum g2s g1s)
            else
              let st1 : NetState := { st with pairs := (g1s ++ "\t" ++ g2s) :: st.pairs }
              match geneOf g1s with
              | .found gid1 =>
                match geneOf g2s with
                | .found gid2 =>
                  if checkUnique = true ∧ unique_together M st1.db gid1 gid2 = false then
                    .error (.notUnique lineNum g1s g2s)
                  else
                    netLoop pf M geneOf checkUnique (lineNum + 1)
                      (flushIfFull { st1 with records := st1.records ++ [⟨gid1, gid2, w⟩] }) rest
                | _ => netLoop pf M geneOf checkUnique (lineNum + 1) st1 rest
              | _ => netLoop pf M geneOf checkUnique (lineNum + 1) st1 rest
      | _ => .error (.badColumns lineNum)

/-- `check_and_import(file_handle, ml_model)`: `check_unique` is decided
once from the pre-existing rows of this model; line 1 is the ignored
header; the trailing partial batch is flushed at end of file. -/
def check_and_import (pf : String → Option ℚ) (M : MLModelN)
    (geneOf : String → GeneRes) (dbEdges : List Edge) (file : List (List String)) :
    Except NetErr (List Edge) :=
  let checkUnique := decide (dbEdges ≠ [])
  match netLoop pf M geneOf checkUnique 1 ⟨[], [], dbEdges⟩ file with
  | .error e => .error e
  | .ok st => .ok (st.db ++ st.records)

/-! ## Derived notions used in statements -/

/-- A data line as `get_weight_matrix` reads it: its gene identifier and its
parsed weights, when the line has the right number of columns and every
weight token parses. -/
def parsedRow (pf : String → Option ℚ) (numColumns : ℕ) (tokens : List String) :
    Option (String × List ℚ) :=
  if numColumns = tokens.length then
    match tokens with
    | [] => none
    | g :: ts =>
      match parseWeights pf ts with
      | .ok ws => some (g, ws)
      | .error _ => none
  else none

/-- Effect of one well-formed data line on the weight matrix (the effect is
trivial on lines that would error, a case never reached in its uses). -/
def lineStep (pf : String → Option ℚ) (nodes : List String) (m : WMatrix)
    (tokens : List String) : WMatrix :=
  match tokens with
  | [] => m
  | g :: ts =>
    match parseWeights pf ts with
    | .ok ws => applyLine nodes g ws m
    | .error _ => m

/-- Does the gene systematic name resolve to exactly one catalog gene? -/
def resolvable (cat : Catalog) (gn : String) : Bool :=
  match cat.geneOf gn with
  | .found _ => true
  | _ => false

/-- The heavy-gene dict restricted to genes resolvable in the catalog. -/
def filterResolvable (cat : Catalog) (hg : WMatrix) : WMatrix :=
  hg.map fun p => (p.1, p.2.filter fun q => resolvable cat q.1)

/-! ## Concrete fixtures (used by witnesses) -/

/-- A small token parser covering the tokens used in concrete fixtures. -/
def pfW : String → Option ℚ :=
  fun s =>
    if s = "1" then some 1
    else if s = "2" then some 2
    else if s = "3" then some 3
    else if s = "4" then some 4
    else if s = "+0.5" then some (1 / 2)
    else if s = "-0.5" then some (-(1 / 2))
    else if s = "+0.1" then some (1 / 10)
    else none

/-- A small gene catalog for concrete fixtures: `gX` resolves to gene 1,
`gY` to gene 2, `gZ` is absent, everything else ambiguous. -/
def geneOfW : String → GeneRes :=
  fun s =>
    if s = "gX" then .found 1
    else if s = "gY" then .found 2
    else if s = "gZ" then .notFound
    else .multiple

/-- A catalog for concrete fixtures: one model `m`, one participation type
`t`, signatures `n1pos` ↦ 10 and `n1neg` ↦ 11 under model `m`, genes as in
`geneOfW`. -/
def catW : Catalog where
  hasModel := fun s => s = "m"
  hasPType := fun s => s = "t"
  sigOf := fun ml sn =>
    if ml = "m" then
      if sn = "n1pos" then some 10 else if sn = "n1neg" then some 11 else none
    else none
  geneOf := geneOfW

/-- A catalog with no models, for the rollback witness. -/
def catEmpty : Catalog where
  hasModel := fun _ => false
  hasPType := fun _ => false
  sigOf := fun _ _ => none
  geneOf := fun _ => .notFound

/-- A catalog with model `m` and type `t` but no signatures and no genes. -/
def catNoSig : Catalog where
  hasModel := fun s => s = "m"
  hasPType := fun s => s = "t"
  sigOf := fun _ _ => none
  geneOf := fun _ => .notFound

/-! ## Dictionary lemmas -/

section DictLemmas

variable {α β : Type} [DecidableEq α]

theorem dlookup_dinsert_self (k : α) (v : β) (l : List (α × β)) :
    dlookup k (dinsert k v l) = some v := by
  induction l with
  | nil => simp [dinsert, dlookup]
  | cons p rest ih =>
    by_cases h : p.1 = k
    · simp [dinsert, h, dlookup]
    · simp [dinsert, h, dlookup, ih]

theorem dlookup_dinsert_ne {k' k : α} (h : k' ≠ k) (v : β) (l : List (α × β)) :
    dlookup k' (dinsert k v l) = dlookup k' l := by
  induction l with
  | nil => simp [dinsert, dlookup, Ne.symm h]
  | cons p rest ih =>
    by_cases hp : p.1 = k
    · simp [dinsert, hp, dlookup, Ne.symm h, hp ▸ (Ne.symm h)]
    · by_cases hp' : p.1 = k'
      · simp [dinsert, hp, dlookup, hp', h]
      · simp [dinsert, hp, dlookup, hp', ih]

theorem dlookup_eq_none_iff (k : α) (l : List (α × β)) :
    dlookup k l = none ↔ k ∉ keysOf l := by
  induction l with
  | nil => simp [dlookup, keysOf]
  | cons p rest ih =>
    by_cases h : p.1 = k
    · simp [dlookup, h, keysOf]
    · simp [dlookup, h, keysOf, Ne.symm h]
      simpa [keysOf] using ih

theorem dinsert_of_not_mem {k : α} {l : List (α × β)} (h : k ∉ keysOf l) (v : β) :
    dinsert k v l = l ++ [(k, v)] := by
  induction l with
  | nil => simp [dinsert]
  | cons p rest ih =>
    simp only [keysOf, List.map_cons, List.mem_cons] at h
    push_neg at h
    simp [dinsert, Ne.symm h.1, ih (by simpa [keysOf] using h.2)]

theorem keysOf_dinsert_of_mem {k : α} {l : List (α × β)} (h : k ∈ keysOf l) (v : β) :
    keysOf (dinsert k v l) = keysOf l := by
  induction l with
  | nil => simp [keysOf] at h
  | cons p rest ih =>
    by_cases hp : p.1 = k
    · simp [dinsert, hp, keysOf]
    · simp only [keysOf, List.map_cons, List.mem_cons] at h
      rcases h with h | h
      · exact absurd h.symm hp
      · have hrest := ih (by simpa [keysOf] using h)
        simp only [keysOf] at hrest
        simp [dinsert, hp, keysOf, hrest]

theorem keysOf_dinsert_of_not_mem {k : α} {l : List (α × β)} (h : k ∉ keysOf l) (v : β) :
    keysOf (dinsert k v l) = keysOf l ++ [k] := by
  rw [dinsert_of_not_mem h, keysOf, List.map_append]
  rfl

theorem nodup_keysOf_dinsert {k : α} {l : List (α × β)} (h : (keysOf l).Nodup) (v : β) :
    (keysOf (dinsert k v l)).Nodup := by
  by_cases hm : k ∈ keysOf l
  · rw [keysOf_dinsert_of_mem hm]; exact h
  · rw [keysOf_dinsert_of_not_mem hm]
    simpa [List.nodup_append] using ⟨h, hm⟩

end DictLemmas

theorem keysOf_updAt (n g : String) (w : ℚ) (m : WMatrix) :
    keysOf (updAt n g w m) = keysOf m := by
  unfold updAt
  induction m with
  | nil => rfl
  | cons p rest ih =>
    by_cases h : p.1 = n
    · simp [h, keysOf] at ih ⊢; exact ih
    · simp [h, keysOf] at ih ⊢; exact ih

theorem dlookup_updAt_self (n g : String) (w : ℚ) (m : WMatrix) :
    dlookup n (updAt n g w m) = (dlookup n m).map (dinsert g w) := by
  unfold updAt
  induction m with
  | nil => rfl
  | cons p rest ih =>
    by_cases h : p.1 = n
    · simp [dlookup, h]
    · simp [dlookup, h, ih]

theorem dlookup_updAt_ne {n' n : String} (h : n' ≠ n) (g : String) (w : ℚ) (m : WMatrix) :
    dlookup n' (updAt n g w m) = dlookup n' m := by
  unfold updAt
  induction m with
  | nil => rfl
  | cons p rest ih =>
    by_cases hp : p.1 = n
    · simp [dlookup, hp, Ne.symm h, ih]
    · by_cases hp' : p.1 = n'
      · simp [dlookup, hp, hp', h]
      · simp [dlookup, hp, hp', ih]

/-! ## String lemmas: bucket names and tab-joined pairs -/

theorem strPos_inj {s t : String} (h : s ++ "pos" = t ++ "pos") : s = t := by
  have h2 : s.data ++ ['p', 'o', 's'] = t.data ++ ['p', 'o', 's'] := by
    simpa [String.data_append] using congrArg String.data h
  exact String.ext (List.append_inj' h2 rfl).1

theorem strNeg_inj {s t : String} (h : s ++ "neg" = t ++ "neg") : s = t := by
  have h2 : s.data ++ ['n', 'e', 'g'] = t.data ++ ['n', 'e', 'g'] := by
    simpa [String.data_append] using congrArg String.data h
  exact String.ext (List.append_inj' h2 rfl).1

theorem strPos_ne_strNeg (s t : String) : s ++ "pos" ≠ t ++ "neg" := by
  intro h
  have h2 : s.data ++ ['p', 'o', 's'] = t.data ++ ['n', 'e', 'g'] := by
    simpa [String.data_append] using congrArg String.data h
  have := (List.append_inj' h2 rfl).2
  simp at this

theorem tab_split_inj : ∀ (l1 l2 r1 r2 : List Char), '\t' ∉ l1 → '\t' ∉ l2 →
    l1 ++ '\t' :: r1 = l2 ++ '\t' :: r2 → l1 = l2 ∧ r1 = r2 := by
  intro l1
  induction l1 with
  | nil =>
    intro l2 r1 r2 _ h2 h
    cases l2 with
    | nil => simpa using h
    | cons c cs =>
      simp only [List.nil_append, List.cons_append, List.cons.injEq] at h
      exact absurd (h.1.symm ▸ List.mem_cons_self c cs) h2
  | cons c cs ih =>
    intro l2 r1 r2 h1 h2 h
    cases l2 with
    | nil =>
      simp only [List.cons_append, List.nil_append, List.cons.injEq] at h
      exact absurd (h.1 ▸ List.mem_cons_self c cs) h1
    | cons d ds =>
      simp only [List.cons_append, List.cons.injEq] at h
      obtain ⟨hr1, hr2⟩ := ih ds r1 r2 (fun hm => h1 (List.mem_cons_of_mem c hm))
        (fun hm => h2 (List.mem_cons_of_mem d hm)) h.2
      exact ⟨by rw [h.1, hr1], hr2⟩

theorem tabJoin_inj {a b c d : String} (ha : '\t' ∉ a.data) (hc : '\t' ∉ c.data)
    (h : a ++ "\t" ++ b = c ++ "\t" ++ d) : a = c ∧ b = d := by
  have h2 : a.data ++ '\t' :: b.data = c.data ++ '\t' :: d.data := by
    simpa [String.data_append] using congrArg String.data h
  obtain ⟨h1, h2⟩ := tab_split_inj _ _ _ _ ha hc h2
  exact ⟨String.ext h1, String.ext h2⟩

/-! ## Justification of the square-root-free threshold encoding -/

/-- Over an ordered field, for σ ≥ 0 with σ² = v (σ the sample standard
deviation, v the sample variance), the source's comparisons against
`mean ± 2.5·σ` coincide with the encodings `heavyPos`/`heavyNeg` use. -/
theorem heavy_threshold_encoding (w mean v s : ℝ) (hs : 0 ≤ s) (hv : s ^ 2 = v) :
    (mean + 5 / 2 * s < w ↔ (mean < w ∧ 25 / 4 * v < (w - mean) ^ 2)) ∧
    (w < mean - 5 / 2 * s ↔ (w < mean ∧ 25 / 4 * v < (w - mean) ^ 2)) := by
  constructor
  · constructor
    · intro h
      constructor
      · nlinarith
      · nlinarith
    · rintro ⟨h1, h2⟩
      nlinarith [sq_nonneg (w - mean + 5 / 2 * s)]
  · constructor
    · intro h
      constructor
      · nlinarith
      · nlinarith
    · rintro ⟨h1, h2⟩
      nlinarith [sq_nonneg (w - mean - 5 / 2 * s)]

/-! ## `get_weight_matrix` lemmas -/

theorem parseWeights_length {pf : String → Option ℚ} :
    ∀ {ts : List String} {ws : List ℚ}, parseWeights pf ts = .ok ws → ws.length = ts.length := by
  intro ts
  induction ts with
  | nil =>
    intro ws h
    simp [parseWeights] at h
    subst h
    rfl
  | cons t rest ih =>
    intro ws h
    cases hp : pf t with
    | none => simp [parseWeights, hp] at h
    | some q =>
      cases hr : parseWeights pf rest with
      | error e => simp [parseWeights, hp, hr] at h
      | ok ws' =>
        simp [parseWeights, hp, hr] at h
        simp [← h, ih hr]

theorem parsedRow_spec {pf : String → Option ℚ} {nc : ℕ} {tokens : List String}
    {g : String} {ws : List ℚ} (h : parsedRow pf nc tokens = some (g, ws)) :
    ∃ ts, tokens = g :: ts ∧ nc = tokens.length ∧ parseWeights pf ts = .ok ws ∧
      ws.length = ts.length := by
  by_cases hc : nc = tokens.length
  · cases tokens with
    | nil => simp [parsedRow, hc] at h
    | cons g' ts =>
      cases hp : parseWeights pf ts with
      | error e => simp [parsedRow, hc, hp] at h
      | ok ws' =>
        simp [parsedRow, hc, hp] at h
        obtain ⟨h1, h2⟩ := h
        subst h1
        subst h2
        exact ⟨ts, rfl, hc, hp, parseWeights_length hp⟩
  · simp [parsedRow, hc] at h

theorem gwmLoop_append (pf : String → Option ℚ) (nodes : List String) (nc : ℕ) :
    ∀ (l1 : List (List String)) (l2 : List (List String)) (ln : ℕ) (m m1 : WMatrix),
    gwmLoop pf nodes nc ln m l1 = .ok m1 →
    gwmLoop pf nodes nc ln m (l1 ++ l2) = gwmLoop pf nodes nc (ln + l1.length) m1 l2 := by
  intro l1
  induction l1 with
  | nil =>
    intro l2 ln m m1 h
    simp [gwmLoop] at h
    simp [h]
  | cons t rest ih =>
    intro l2 ln m m1 h
    by_cases hc : nc ≠ t.length
    · simp [gwmLoop, hc] at h
    · cases t with
      | nil =>
        simp [gwmLoop, hc] at h
        split at h <;> simp at h
      | cons g ts =>
        cases hp : parseWeights pf ts with
        | error e =>
          simp [gwmLoop, hc, hp] at h
          split at h <;> simp at h
        | ok ws =>
          simp only [List.cons_append, gwmLoop, if_neg hc, hp] at h ⊢
          rw [show rest.append l2 = rest ++ l2 from rfl, ih l2 (ln + 1) _ m1 h,
            show ln + 1 + rest.length = ln + ((g :: ts) :: rest).length from by
              simp only [List.length_cons]; omega]

theorem gwmLoop_ok_of_wf (pf : String → Option ℚ) (nodes : List String) (nc : ℕ) :
    ∀ (rows : List (List String)) (ln : ℕ) (m : WMatrix),
    (∀ t ∈ rows, (parsedRow pf nc t).isSome) →
    gwmLoop pf nodes nc ln m rows = .ok (rows.foldl (lineStep pf nodes) m) := by
  intro rows
  induction rows with
  | nil => intro ln m _; simp [gwmLoop]
  | cons t rest ih =>
    intro ln m hwf
    have ht : (parsedRow pf nc t).isSome := hwf t (List.mem_cons_self t rest)
    by_cases hc : nc = t.length
    · cases t with
      | nil => simp [parsedRow, hc] at ht
      | cons g ts =>
        cases hp : parseWeights pf ts with
        | error e => simp [parsedRow, hc, hp] at ht
        | ok ws =>
          simp only [gwmLoop, if_neg (by omega : ¬ nc ≠ (g :: ts).length), hp,
            List.foldl_cons, lineStep]
          exact ih (ln + 1) _ (fun t' ht' => hwf t' (List.mem_cons_of_mem (g :: ts) ht'))
    · simp [parsedRow, hc] at ht

theorem gwmLoop_badColumns {pf : String → Option ℚ} {nodes : List String} {nc : ℕ}
    {bad : List String} (h : nc ≠ bad.length) (ln : ℕ) (m : WMatrix)
    (rest : List (List String)) :
    gwmLoop pf nodes nc ln m (bad :: rest) = .error (.badColumns ln) := by
  simp [gwmLoop, h]

theorem parseWeights_error_at {pf : String → Option ℚ} :
    ∀ (ts1 : List String) (t : String) (ts2 : List String),
    (∀ t' ∈ ts1, (pf t').isSome) → pf t = none →
    parseWeights pf (ts1 ++ t :: ts2) = .error t := by
  intro ts1
  induction ts1 with
  | nil => intro t ts2 _ ht; simp [parseWeights, ht]
  | cons u us ih =>
    intro t ts2 h1 ht
    have hu : (pf u).isSome := h1 u (List.mem_cons_self u us)
    cases hpu : pf u with
    | none => simp [hpu] at hu
    | some q =>
      have hrec := ih t ts2 (fun t' ht' => h1 t' (List.mem_cons_of_mem u ht')) ht
      simp only [List.cons_append, parseWeights, hpu]
      rw [show us.append (t :: ts2) = us ++ t :: ts2 from rfl, hrec]

theorem gwmLoop_badFloat {pf : String → Option ℚ} {nodes : List String} {nc : ℕ}
    {g : String} {ts : List String} {tok : String}
    (hc : nc = (g :: ts).length) (hp : parseWeights pf ts = .error tok)
    (ln : ℕ) (m : WMatrix) (rest : List (List String)) :
    gwmLoop pf nodes nc ln m ((g :: ts) :: rest) = .error (.badFloat tok) := by
  simp [gwmLoop, hc, hp]

/-! ## `applyLine` and `initMatrix` lemmas -/

theorem dlookup_zipFold_not_mem (g : String) :
    ∀ (ps : List (String × ℚ)) (m : WMatrix) {n : String}, n ∉ ps.map Prod.fst →
    dlookup n (ps.foldl (fun m p => updAt p.1 g p.2 m) m) = dlookup n m := by
  intro ps
  induction ps with
  | nil => intro m n _; rfl
  | cons p rest ih =>
    intro m n hn
    simp only [List.map_cons, List.mem_cons] at hn
    push_neg at hn
    rw [List.foldl_cons, ih _ hn.2, dlookup_updAt_ne hn.1]

theorem keysOf_zipFold (g : String) :
    ∀ (ps : List (String × ℚ)) (m : WMatrix),
    keysOf (ps.foldl (fun m p => updAt p.1 g p.2 m) m) = keysOf m := by
  intro ps
  induction ps with
  | nil => intro m; rfl
  | cons p rest ih =>
    intro m
    rw [List.foldl_cons, ih, keysOf_updAt]

theorem keysOf_applyLine (nodes : List String) (g : String) (ws : List ℚ) (m : WMatrix) :
    keysOf (applyLine nodes g ws m) = keysOf m :=
  keysOf_zipFold g (nodes.zip ws) m

theorem dlookup_applyLine_get {nodes : List String} (hnd : nodes.Nodup) (g : String) :
    ∀ (ws : List ℚ) (m : WMatrix) (i : ℕ) (hi : i < nodes.length) (hw : i < ws.length),
    dlookup (nodes.get ⟨i, hi⟩) (applyLine nodes g ws m) =
      (dlookup (nodes.get ⟨i, hi⟩) m).map (dinsert g (ws.get ⟨i, hw⟩)) := by
  induction nodes with
  | nil => intro ws m i hi _; exact absurd hi (by simp)
  | cons n ns ih =>
    intro ws m i hi hw
    cases ws with
    | nil => exact absurd hw (by simp)
    | cons w ws' =>
      have hn : n ∉ ns := (List.nodup_cons.mp hnd).1
      cases i with
      | zero =>
        have hnot : n ∉ (ns.zip ws').map Prod.fst := by
          intro hmem
          obtain ⟨p, hp, hfst⟩ := List.mem_map.mp hmem
          exact hn (hfst ▸ (List.of_mem_zip hp).1)
        show dlookup n ((ns.zip ws').foldl (fun m p => updAt p.1 g p.2 m) (updAt n g w m)) =
          (dlookup n m).map (dinsert g w)
        rw [dlookup_zipFold_not_mem g _ _ hnot, dlookup_updAt_self]
      | succ j =>
        have hj : j < ns.length := by simpa using hi
        have hjw : j < ws'.length := by simpa using hw
        have hne : ns.get ⟨j, hj⟩ ≠ n := fun h => hn (h ▸ List.get_mem ns j hj)
        show dlookup (ns.get ⟨j, hj⟩) (applyLine ns g ws' (updAt n g w m)) =
          (dlookup (ns.get ⟨j, hj⟩) m).map (dinsert g (ws'.get ⟨j, hjw⟩))
        rw [ih (List.nodup_cons.mp hnd).2 ws' (updAt n g w m) j hj hjw,
          dlookup_updAt_ne hne]

theorem bind_dlookup_updAt_ne {g g' : String} (hne : g ≠ g') (nn : String) (w : ℚ)
    (m : WMatrix) (n : String) :
    (dlookup n (updAt nn g' w m)).bind (dlookup g) = (dlookup n m).bind (dlookup g) := by
  by_cases h : n = nn
  · subst h
    rw [dlookup_updAt_self]
    cases dlookup n m with
    | none => rfl
    | some d => simp [dlookup_dinsert_ne hne]
  · rw [dlookup_updAt_ne h]

theorem bind_dlookup_zipFold_ne {g g' : String} (hne : g ≠ g') :
    ∀ (ps : List (String × ℚ)) (m : WMatrix) (n : String),
    (dlookup n (ps.foldl (fun m p => updAt p.1 g' p.2 m) m)).bind (dlookup g) =
      (dlookup n m).bind (dlookup g) := by
  intro ps
  induction ps with
  | nil => intro m n; rfl
  | cons p rest ih =>
    intro m n
    rw [List.foldl_cons, ih, bind_dlookup_updAt_ne hne]

theorem bind_dlookup_applyLine_ne {g g' : String} (hne : g ≠ g') (nodes : List String)
    (ws : List ℚ) (m : WMatrix) (n : String) :
    (dlookup n (applyLine nodes g' ws m)).bind (dlookup g) =
      (dlookup n m).bind (dlookup g) :=
  bind_dlookup_zipFold_ne hne (nodes.zip ws) m n

theorem foldl_dinsert_nil_eq :
    ∀ (nodes : List String) (m : WMatrix), nodes.Nodup → (∀ n ∈ nodes, n ∉ keysOf m) →
    nodes.foldl (fun m n => dinsert n [] m) m = m ++ nodes.map (fun n => (n, [])) := by
  intro nodes
  induction nodes with
  | nil => intro m _ _; simp
  | cons n ns ih =>
    intro m hnd hfresh
    rw [List.foldl_cons, dinsert_of_not_mem (hfresh n (List.mem_cons_self n ns))]
    rw [ih _ (List.nodup_cons.mp hnd).2]
    · simp
    · intro n' hn'
      rw [keysOf, List.map_append]
      simp only [List.mem_append]
      rintro (h | h)
      · exact hfresh n' (List.mem_cons_of_mem n hn') h
      · simp only [keysOf, List.map_cons, List.map_nil, List.mem_singleton] at h
        exact (List.nodup_cons.mp hnd).1 (h ▸ hn')

theorem initMatrix_eq {nodes : List String} (hnd : nodes.Nodup) :
    initMatrix nodes = nodes.map (fun n => (n, [])) := by
  have := foldl_dinsert_nil_eq nodes [] hnd (by simp [keysOf])
  simpa [initMatrix] using this

theorem keysOf_foldl_dinsert_nodup :
    ∀ (nodes : List String) (m : WMatrix), (keysOf m).Nodup →
    (keysOf (nodes.foldl (fun m n => dinsert n [] m) m)).Nodup := by
  intro nodes
  induction nodes with
  | nil => intro m h; exact h
  | cons n ns ih =>
    intro m h
    rw [List.foldl_cons]
    exact ih _ (nodup_keysOf_dinsert h [])

theorem keysOf_initMatrix_nodup (nodes : List String) :
    (keysOf (initMatrix nodes)).Nodup :=
  keysOf_foldl_dinsert_nodup nodes [] (by simp [keysOf])

/-! ## Generic loop invariants -/

theorem gwmLoop_inv {pf : String → Option ℚ} {nodes : List String} {nc : ℕ}
    (P : WMatrix → Prop)
    (hstep : ∀ m g ws, P m → P (applyLine nodes g ws m)) :
    ∀ (rows : List (List String)) (ln : ℕ) (m M : WMatrix),
    P m → gwmLoop pf nodes nc ln m rows = .ok M → P M := by
  intro rows
  induction rows with
  | nil => intro ln m M hP h; simp [gwmLoop] at h; exact h ▸ hP
  | cons t rest ih =>
    intro ln m M hP h
    by_cases hc : nc ≠ t.length
    · simp [gwmLoop, hc] at h
    · cases t with
      | nil =>
        simp [gwmLoop, hc] at h
        split at h <;> simp at h
      | cons g ts =>
        cases hp : parseWeights pf ts with
        | error e =>
          simp [gwmLoop, hc, hp] at h
          split at h <;> simp at h
        | ok ws =>
          simp only [gwmLoop, if_neg hc, hp] at h
          exact ih (ln + 1) _ M (hstep m g ws hP) h

theorem dinsert_val_inv {β : Type} (P : β → Prop) {m : List (String × β)}
    (hm : ∀ p ∈ m, P p.2) {v : β} (hv : P v) (k : String) :
    ∀ p ∈ dinsert k v m, P p.2 := by
  induction m with
  | nil => simpa [dinsert]
  | cons q rest ih =>
    intro p hp
    by_cases hq : q.1 = k
    · simp only [dinsert, if_pos hq] at hp
      rcases List.mem_cons.mp hp with h | h
      · exact h ▸ hv
      · exact hm p (List.mem_cons_of_mem q h)
    · simp only [dinsert, if_neg hq] at hp
      rcases List.mem_cons.mp hp with h | h
      · exact h ▸ hm q (List.mem_cons_self q rest)
      · exact ih (fun p' hp' => hm p' (List.mem_cons_of_mem q hp')) p h

theorem updAt_val_nodup {m : WMatrix} (hm : ∀ p ∈ m, (keysOf p.2).Nodup)
    (n g : String) (w : ℚ) :
    ∀ p ∈ updAt n g w m, (keysOf p.2).Nodup := by
  intro p hp
  obtain ⟨q, hq, hpq⟩ := List.mem_map.mp hp
  by_cases h : q.1 = n
  · simp only [if_pos h] at hpq
    exact hpq ▸ nodup_keysOf_dinsert (hm q hq) w
  · simp only [if_neg h] at hpq
    exact hpq ▸ hm q hq

/-! ## Fold-over-rows lookup lemmas -/

theorem dlookup_isSome_iff {α β : Type} [DecidableEq α] (k : α) (l : List (α × β)) :
    (dlookup k l).isSome ↔ k ∈ keysOf l := by
  cases h : dlookup k l with
  | none => simp [(dlookup_eq_none_iff k l).mp h]
  | some v =>
    simp only [Option.isSome_some, true_iff]
    by_contra hk
    rw [(dlookup_eq_none_iff k l).mpr hk] at h
    cases h

theorem forall2_exists_left {α β : Type} {R : α → β → Prop} :
    ∀ {l1 : List α} {l2 : List β}, List.Forall₂ R l1 l2 → ∀ a ∈ l1, ∃ b ∈ l2, R a b := by
  intro l1 l2 h
  induction h with
  | nil => intro a ha; simp at ha
  | cons hR _ ih =>
    intro a ha
    rcases List.mem_cons.mp ha with h' | h'
    · exact ⟨_, List.mem_cons_self _ _, h' ▸ hR⟩
    · obtain ⟨b, hb, hRb⟩ := ih a h'
      exact ⟨b, List.mem_cons_of_mem _ hb, hRb⟩

theorem lineStep_parsed {pf : String → Option ℚ} {nc : ℕ} {r : List String}
    {q : String × List ℚ} (h : parsedRow pf nc r = some q) (nodes : List String)
    (m : WMatrix) : lineStep pf nodes m r = applyLine nodes q.1 q.2 m := by
  obtain ⟨ts, hr, _, hp, _⟩ := parsedRow_spec h
  subst hr
  simp [lineStep, hp]

theorem keysOf_lineStep (pf : String → Option ℚ) (nodes : List String) (m : WMatrix)
    (r : List String) : keysOf (lineStep pf nodes m r) = keysOf m := by
  cases r with
  | nil => rfl
  | cons g ts =>
    cases hp : parseWeights pf ts with
    | error e => simp [lineStep, hp]
    | ok ws => simp [lineStep, hp, keysOf_applyLine]

theorem bind_pres_rowsFold {pf : String → Option ℚ} {nodes : List String} {nc : ℕ}
    {g : String} :
    ∀ {rows : List (List String)} {prs : List (String × List ℚ)},
    List.Forall₂ (fun r q => parsedRow pf nc r = some q) rows prs →
    (∀ q ∈ prs, q.1 ≠ g) →
    ∀ (m : WMatrix) (n : String),
    (dlookup n (rows.foldl (lineStep pf nodes) m)).bind (dlookup g) =
      (dlookup n m).bind (dlookup g) := by
  intro rows prs h
  induction h with
  | nil => intro _ m n; rfl
  | @cons r q rows' prs' hR hF ih =>
    intro hne m n
    rw [List.foldl_cons, ih (fun q' hq' => hne q' (List.mem_cons_of_mem q hq')),
      lineStep_parsed hR, bind_dlookup_applyLine_ne]
    exact fun h => (hne q (List.mem_cons_self q prs')) h.symm

theorem rowsFold_lookup {pf : String → Option ℚ} {nodes : List String}
    (hnd : nodes.Nodup) :
    ∀ {rows : List (List String)} {prs : List (String × List ℚ)},
    List.Forall₂ (fun r q => parsedRow pf (nodes.length + 1) r = some q) rows prs →
    (prs.map Prod.fst).Nodup →
    ∀ (m : WMatrix), (∀ n ∈ nodes, (dlookup n m).isSome) →
    ∀ q ∈ prs, ∀ (i : ℕ) (hi : i < nodes.length) (hwi : i < q.2.length),
      (dlookup (nodes.get ⟨i, hi⟩) (rows.foldl (lineStep pf nodes) m)).bind (dlookup q.1)
        = some (q.2.get ⟨i, hwi⟩) := by
  intro rows prs h
  induction h with
  | nil => intro _ m _ q hq; simp at hq
  | @cons r q0 rows' prs' hR hF ih =>
    intro hprnd m hsome q hq i hi hwi
    have hnext : ∀ n ∈ nodes, (dlookup n (lineStep pf nodes m r)).isSome := by
      intro n hn
      rw [dlookup_isSome_iff, keysOf_lineStep]
      exact (dlookup_isSome_iff n m).mp (hsome n hn)
    rcases List.mem_cons.mp hq with hq0 | hq'
    · subst hq0
      rw [List.foldl_cons,
        bind_pres_rowsFold hF
          (by
            intro q' hq'
            intro hcol
            have : q.1 ∈ prs'.map Prod.fst := List.mem_map.mpr ⟨q', hq', hcol⟩
            exact (List.nodup_cons.mp (by simpa using hprnd)).1 this),
        lineStep_parsed hR]
      obtain ⟨d, hd⟩ := Option.isSome_iff_exists.mp
        (hsome (nodes.get ⟨i, hi⟩) (List.get_mem nodes i hi))
      rw [dlookup_applyLine_get hnd q.1 q.2 m i hi hwi, hd]
      simp [dlookup_dinsert_self]
    · rw [List.foldl_cons]
      exact ih (List.nodup_cons.mp (by simpa using hprnd)).2 (lineStep pf nodes m r)
        hnext q hq' i hi hwi

theorem keysOf_initMatrix {nodes : List String} (hnd : nodes.Nodup) :
    keysOf (initMatrix nodes) = nodes := by
  rw [initMatrix_eq hnd]
  simp only [keysOf, List.map_map]
  exact List.map_id'' (fun _ => rfl) nodes

theorem gwm_cons (pf : String → Option ℚ) (c0 : String) (nodes : List String)
    (rows : List (List String)) :
    get_weight_matrix pf ((c0 :: nodes) :: rows) =
      gwmLoop pf nodes (nodes.length + 1) 2 (initMatrix nodes) rows := rfl

theorem keysOf_rowsFold (pf : String → Option ℚ) (nodes : List String) :
    ∀ (rows : List (List String)) (m : WMatrix),
    keysOf (rows.foldl (lineStep pf nodes) m) = keysOf m := by
  intro rows
  induction rows with
  | nil => intro m; rfl
  | cons t rest ih => intro m; rw [List.foldl_cons, ih, keysOf_lineStep]

/-- C4: for every weight-matrix input conforming to the documented file
format — a header row of a blank cell followed by N node names, then data
rows of a gene identifier followed by N parseable weights —
`get_weight_matrix` succeeds and returns a rectangular matrix keyed by
exactly the N header node names, where every node maps every gene
identifier of the file to that gene's weight in the node's column.
(Node names and gene identifiers are pairwise distinct, as the format's
phrases "N node names" and "that gene's weight" presuppose.) -/
theorem claim_C4 {pf : String → Option ℚ} (c0 : String) {nodes : List String}
    {rows : List (List String)} {prs : List (String × List ℚ)}
    (hnd : nodes.Nodup) (hgnd : (prs.map Prod.fst).Nodup)
    (hrows : List.Forall₂ (fun r q => parsedRow pf (nodes.length + 1) r = some q) rows prs) :
    ∃ M, get_weight_matrix pf ((c0 :: nodes) :: rows) = .ok M ∧
      keysOf M = nodes ∧
      ∀ q ∈ prs, ∀ (i : ℕ) (hi : i < nodes.length) (hwi : i < q.2.length),
        ∃ d, dlookup (nodes.get ⟨i, hi⟩) M = some d ∧
          dlookup q.1 d = some (q.2.get ⟨i, hwi⟩) := by
  have hwf : ∀ t ∈ rows, (parsedRow pf (nodes.length + 1) t).isSome := by
    intro t ht
    obtain ⟨q, _, hq⟩ := forall2_exists_left hrows t ht
    simp [hq]
  refine ⟨rows.foldl (lineStep pf nodes) (initMatrix nodes), ?_, ?_, ?_⟩
  · rw [gwm_cons]
    exact gwmLoop_ok_of_wf pf nodes (nodes.length + 1) rows 2 (initMatrix nodes) hwf
  · rw [keysOf_rowsFold, keysOf_initMatrix hnd]
  · intro q hq i hi hwi
    have hsome : ∀ n ∈ nodes, (dlookup n (initMatrix nodes)).isSome := by
      intro n hn
      rw [dlookup_isSome_iff, keysOf_initMatrix hnd]
      exact hn
    have hmain := rowsFold_lookup hnd hrows hgnd (initMatrix nodes) hsome q hq i hi hwi
    cases hdl : dlookup (nodes.get ⟨i, hi⟩) (rows.foldl (lineStep pf nodes) (initMatrix nodes)) with
    | none => rw [hdl] at hmain; simp at hmain
    | some d =>
      rw [hdl] at hmain
      exact ⟨d, rfl, by simpa using hmain⟩

/-- C5: `get_weight_matrix` fails with an error citing the 1-based line
number of the first data line whose column count is not N+1 (N the number
of header node names; all earlier data lines well formed), and fails on a
weight token that does not parse as a float (the raised `ValueError` cites
the offending token). -/
theorem claim_C5 {pf : String → Option ℚ} (c0 : String) (nodes : List String)
    (good rest : List (List String))
    (hgood : ∀ t ∈ good, (parsedRow pf (nodes.length + 1) t).isSome) :
    (∀ bad, nodes.length + 1 ≠ bad.length →
      get_weight_matrix pf ((c0 :: nodes) :: (good ++ bad :: rest)) =
        .error (.badColumns (good.length + 2))) ∧
    (∀ g ts1 t ts2, (g :: (ts1 ++ t :: ts2)).length = nodes.length + 1 →
      (∀ t' ∈ ts1, (pf t').isSome) → pf t = none →
      get_weight_matrix pf ((c0 :: nodes) :: (good ++ (g :: (ts1 ++ t :: ts2)) :: rest)) =
        .error (.badFloat t)) := by
  have hok : gwmLoop pf nodes (nodes.length + 1) 2 (initMatrix nodes) good =
      .ok (good.foldl (lineStep pf nodes) (initMatrix nodes)) :=
    gwmLoop_ok_of_wf pf nodes (nodes.length + 1) good 2 (initMatrix nodes) hgood
  constructor
  · intro bad hbad
    rw [gwm_cons, gwmLoop_append pf nodes (nodes.length + 1) good (bad :: rest) 2 _ _ hok,
      gwmLoop_badColumns hbad, Nat.add_comm]
  · intro g ts1 t ts2 hlen h1 ht
    have hperr : parseWeights pf (ts1 ++ t :: ts2) = .error t :=
      parseWeights_error_at ts1 t ts2 h1 ht
    rw [gwm_cons,
      gwmLoop_append pf nodes (nodes.length + 1) good ((g :: (ts1 ++ t :: ts2)) :: rest)
        2 _ _ hok,
      gwmLoop_badFloat hlen.symm hperr]

/-- C9: a gene identifier repeating on a later data line is neither
rejected nor de-duplicated by `get_weight_matrix`: appending a well-formed
data line for a gene `g` that already has an entry (weight `oldw`) at every
node silently overwrites — afterwards each node `i` maps `g` to the new
line's weight in column `i`, and all other genes' entries are unchanged. -/
theorem claim_C9 {pf : String → Option ℚ} (c0 : String) {nodes : List String}
    {rows : List (List String)} {M : WMatrix} {newline : List String}
    {g : String} {ws : List ℚ} {i : ℕ} {d : GeneDict} {oldw : ℚ}
    (hnd : nodes.Nodup)
    (h1 : get_weight_matrix pf ((c0 :: nodes) :: rows) = .ok M)
    (hline : parsedRow pf (nodes.length + 1) newline = some (g, ws))
    (hi : i < nodes.length) (hwi : i < ws.length)
    (hd : dlookup (nodes.get ⟨i, hi⟩) M = some d)
    (hold : dlookup g d = some oldw) :
    ∃ M', get_weight_matrix pf ((c0 :: nodes) :: (rows ++ [newline])) = .ok M' ∧
      ∃ d', dlookup (nodes.get ⟨i, hi⟩) M' = some d' ∧
        dlookup g d' = some (ws.get ⟨i, hwi⟩) ∧
        ∀ g', g' ≠ g → dlookup g' d' = dlookup g' d := by
  rw [gwm_cons] at h1
  have hstep : gwmLoop pf nodes (nodes.length + 1) (2 + rows.length) M [newline] =
      .ok (applyLine nodes g ws M) := by
    have := gwmLoop_ok_of_wf pf nodes (nodes.length + 1) [newline] (2 + rows.length) M
      (by intro t ht; simp at ht; simp [ht, hline])
    rw [this, List.foldl_cons, List.foldl_nil, lineStep_parsed hline]
  refine ⟨applyLine nodes g ws M, ?_, dinsert g (ws.get ⟨i, hwi⟩) d, ?_, ?_, ?_⟩
  · rw [gwm_cons, gwmLoop_append pf nodes (nodes.length + 1) rows [newline] 2 _ _ h1, hstep]
  · rw [dlookup_applyLine_get hnd g ws M i hi hwi, hd]
    rfl
  · exact dlookup_dinsert_self g _ d
  · intro g' hg'
    exact dlookup_dinsert_ne hg' _ d

/-! ## Heavy-gene classifier lemmas -/

theorem nodup_keys_val_eq : ∀ {l : GeneDict}, (keysOf l).Nodup →
    ∀ {g : String} {w w' : ℚ}, (g, w) ∈ l → (g, w') ∈ l → w = w' := by
  intro l
  induction l with
  | nil => intro _ g w w' h; simp at h
  | cons q rest ih =>
    intro hnd g w w' h h'
    have hnd' : (q.1 :: keysOf rest).Nodup := hnd
    have hq1 : q.1 ∉ keysOf rest := (List.nodup_cons.mp hnd').1
    rcases List.mem_cons.mp h with h1 | h1 <;> rcases List.mem_cons.mp h' with h2 | h2
    · exact congrArg Prod.snd (h1.trans h2.symm)
    · exfalso
      apply hq1
      have hm : ((g, w) : String × ℚ).1 ∈ keysOf rest := List.mem_map.mpr ⟨(g, w'), h2, rfl⟩
      rw [h1] at hm
      exact hm
    · exfalso
      apply hq1
      have hm : ((g, w') : String × ℚ).1 ∈ keysOf rest := List.mem_map.mpr ⟨(g, w), h1, rfl⟩
      rw [h2] at hm
      exact hm
    · exact ih (List.nodup_cons.mp hnd').2 h1 h2

theorem mem_keysOf_filter {f : String × ℚ → Bool} {l : GeneDict} {g : String} :
    g ∈ keysOf (l.filter f) ↔ ∃ w, (g, w) ∈ l ∧ f (g, w) = true := by
  constructor
  · intro h
    obtain ⟨p, hp, hfst⟩ := List.mem_map.mp h
    obtain ⟨hmem, hf⟩ := List.mem_filter.mp hp
    exact ⟨p.2, by rw [← hfst]; simpa using hmem, by rw [← hfst]; simpa using hf⟩
  · rintro ⟨w, hmem, hf⟩
    exact List.mem_map.mpr ⟨(g, w), List.mem_filter.mpr ⟨hmem, hf⟩, rfl⟩

theorem fhgNodeFold_spec {posName negName : String} (hpn : posName ≠ negName)
    (mean var : ℚ) :
    ∀ (gws : GeneDict) (hg : WMatrix) (P N : GeneDict),
    dlookup posName hg = some P → dlookup negName hg = some N →
    (keysOf gws).Nodup →
    (∀ p ∈ gws, p.1 ∉ keysOf P) → (∀ p ∈ gws, p.1 ∉ keysOf N) →
    dlookup posName (fhgNodeFold posName negName mean var gws hg) =
        some (P ++ filterPos mean var gws) ∧
    dlookup negName (fhgNodeFold posName negName mean var gws hg) =
        some (N ++ filterNeg mean var gws) ∧
    ∀ k, k ≠ posName → k ≠ negName →
      dlookup k (fhgNodeFold posName negName mean var gws hg) = dlookup k hg := by
  intro gws
  induction gws with
  | nil =>
    intro hg P N hP hN _ _ _
    refine ⟨?_, ?_, fun k _ _ => rfl⟩
    · simpa [fhgNodeFold, filterPos] using hP
    · simpa [fhgNodeFold, filterNeg] using hN
  | cons p rest ih =>
    intro hg P N hP hN hnd hfP hfN
    have hnd' : (p.1 :: keysOf rest).Nodup := hnd
    have hndr : (keysOf rest).Nodup := (List.nodup_cons.mp hnd').2
    have hp1r : p.1 ∉ keysOf rest := (List.nodup_cons.mp hnd').1
    by_cases hPc : heavyPos mean var p.2
    · have hNc : ¬ heavyNeg mean var p.2 := by
        intro hc
        exact absurd (lt_trans hc.1 hPc.1) (lt_irrefl _)
      have step : fhgNodeFold posName negName mean var (p :: rest) hg =
          fhgNodeFold posName negName mean var rest (updAt posName p.1 p.2 hg) := by
        simp [fhgNodeFold, hPc]
      have hP' : dlookup posName (updAt posName p.1 p.2 hg) = some (P ++ [p]) := by
        rw [dlookup_updAt_self, hP]
        simp [dinsert_of_not_mem (hfP p (List.mem_cons_self p rest))]
      have hN' : dlookup negName (updAt posName p.1 p.2 hg) = some N := by
        rw [dlookup_updAt_ne (Ne.symm hpn), hN]
      have hfP' : ∀ q ∈ rest, q.1 ∉ keysOf (P ++ [p]) := by
        intro q hq
        rw [keysOf, List.map_append, List.mem_append]
        rintro (h | h)
        · exact hfP q (List.mem_cons_of_mem p hq) h
        · simp at h
          exact hp1r (h ▸ List.mem_map.mpr ⟨q, hq, rfl⟩)
      have hfN' : ∀ q ∈ rest, q.1 ∉ keysOf N :=
        fun q hq => hfN q (List.mem_cons_of_mem p hq)
      obtain ⟨c1, c2, c3⟩ := ih (updAt posName p.1 p.2 hg) (P ++ [p]) N hP' hN' hndr hfP' hfN'
      refine ⟨?_, ?_, ?_⟩
      · rw [step, c1]
        simp [filterPos, hPc]
      · rw [step, c2]
        simp [filterNeg, hNc]
      · intro k hk1 hk2
        rw [step, c3 k hk1 hk2, dlookup_updAt_ne hk1]
    · by_cases hNc : heavyNeg mean var p.2
      · have step : fhgNodeFold posName negName mean var (p :: rest) hg =
            fhgNodeFold posName negName mean var rest (updAt negName p.1 p.2 hg) := by
          simp [fhgNodeFold, hPc, hNc]
        have hP' : dlookup posName (updAt negName p.1 p.2 hg) = some P := by
          rw [dlookup_updAt_ne hpn, hP]
        have hN' : dlookup negName (updAt negName p.1 p.2 hg) = some (N ++ [p]) := by
          rw [dlookup_updAt_self, hN]
          simp [dinsert_of_not_mem (hfN p (List.mem_cons_self p rest))]
        have hfP' : ∀ q ∈ rest, q.1 ∉ keysOf P :=
          fun q hq => hfP q (List.mem_cons_of_mem p hq)
        have hfN' : ∀ q ∈ rest, q.1 ∉ keysOf (N ++ [p]) := by
          intro q hq
          rw [keysOf, List.map_append, List.mem_append]
          rintro (h | h)
          · exact hfN q (List.mem_cons_of_mem p hq) h
          · simp at h
            exact hp1r (h ▸ List.mem_map.mpr ⟨q, hq, rfl⟩)
        obtain ⟨c1, c2, c3⟩ := ih (updAt negName p.1 p.2 hg) P (N ++ [p]) hP' hN' hndr hfP' hfN'
        refine ⟨?_, ?_, ?_⟩
        · rw [step, c1]
          simp [filterPos, hPc]
        · rw [step, c2]
          simp [filterNeg, hNc]
        · intro k hk1 hk2
          rw [step, c3 k hk1 hk2, dlookup_updAt_ne hk2]
      · have step : fhgNodeFold posName negName mean var (p :: rest) hg =
            fhgNodeFold posName negName mean var rest hg := by
          simp [fhgNodeFold, hPc, hNc]
        obtain ⟨c1, c2, c3⟩ := ih hg P N hP hN hndr
          (fun q hq => hfP q (List.mem_cons_of_mem p hq))
          (fun q hq => hfN q (List.mem_cons_of_mem p hq))
        refine ⟨?_, ?_, ?_⟩
        · rw [step, c1]
          simp [filterPos, hPc]
        · rw [step, c2]
          simp [filterNeg, hNc]
        · intro k hk1 hk2
          rw [step, c3 k hk1 hk2]

theorem fhgLoop_spec :
    ∀ (wm : WMatrix) (hg0 : WMatrix),
    (keysOf wm).Nodup →
    (∀ p ∈ wm, 2 ≤ p.2.length) →
    (∀ p ∈ wm, (keysOf p.2).Nodup) →
    ∃ HG, fhgLoop hg0 wm = .ok HG ∧
      (∀ p ∈ wm,
        dlookup (p.1 ++ "pos") HG =
          some (filterPos (qmean (p.2.map Prod.snd)) (sampleVar (p.2.map Prod.snd)) p.2) ∧
        dlookup (p.1 ++ "neg") HG =
          some (filterNeg (qmean (p.2.map Prod.snd)) (sampleVar (p.2.map Prod.snd)) p.2)) ∧
      (∀ k, (∀ p ∈ wm, k ≠ p.1 ++ "pos" ∧ k ≠ p.1 ++ "neg") →
        dlookup k HG = dlookup k hg0) := by
  intro wm
  induction wm with
  | nil =>
    intro hg0 _ _ _
    exact ⟨hg0, rfl, by simp, fun k _ => rfl⟩
  | cons p rest ih =>
    intro hg0 hnd h2 hgnd
    obtain ⟨node, gws⟩ := p
    have hnd' : (node :: keysOf rest).Nodup := hnd
    have hmemhd : ((node, gws) : String × GeneDict) ∈ (node, gws) :: rest :=
      List.mem_cons_self _ _
    have hgl : 2 ≤ List.length gws := h2 (node, gws) hmemhd
    have hlen : ¬ List.length gws < 2 := by omega
    have hstep : fhgLoop hg0 ((node, gws) :: rest) =
        fhgLoop (fhgNodeFold (node ++ "pos") (node ++ "neg")
          (qmean (gws.map Prod.snd)) (sampleVar (gws.map Prod.snd)) gws
          (dinsert (node ++ "neg") [] (dinsert (node ++ "pos") [] hg0))) rest := by
      simp [fhgLoop, hlen]
    have hpn : (node ++ "pos") ≠ (node ++ "neg") := strPos_ne_strNeg node node
    have hg2P : dlookup (node ++ "pos")
        (dinsert (node ++ "neg") [] (dinsert (node ++ "pos") [] hg0)) = some [] := by
      rw [dlookup_dinsert_ne hpn, dlookup_dinsert_self]
    have hg2N : dlookup (node ++ "neg")
        (dinsert (node ++ "neg") [] (dinsert (node ++ "pos") [] hg0)) = some [] :=
      dlookup_dinsert_self _ _ _
    obtain ⟨f1, f2, f3⟩ := fhgNodeFold_spec hpn
      (qmean (gws.map Prod.snd)) (sampleVar (gws.map Prod.snd)) gws
      (dinsert (node ++ "neg") [] (dinsert (node ++ "pos") [] hg0)) [] []
      hg2P hg2N (hgnd (node, gws) hmemhd) (by simp [keysOf]) (by simp [keysOf])
    obtain ⟨HG, hHG, hbuckets, hother⟩ := ih _ (List.nodup_cons.mp hnd').2
      (fun q hq => h2 q (List.mem_cons_of_mem _ hq))
      (fun q hq => hgnd q (List.mem_cons_of_mem _ hq))
    have hnode_rest : ∀ q ∈ rest, node ≠ q.1 := by
      intro q hq heq
      exact (List.nodup_cons.mp hnd').1 (heq ▸ List.mem_map.mpr ⟨q, hq, rfl⟩)
    have hheadP : ∀ q ∈ rest, node ++ "pos" ≠ q.1 ++ "pos" ∧ node ++ "pos" ≠ q.1 ++ "neg" :=
      fun q hq => ⟨fun h => hnode_rest q hq (strPos_inj h), strPos_ne_strNeg node q.1⟩
    have hheadN : ∀ q ∈ rest, node ++ "neg" ≠ q.1 ++ "pos" ∧ node ++ "neg" ≠ q.1 ++ "neg" :=
      fun q hq => ⟨fun h => strPos_ne_strNeg q.1 node h.symm,
        fun h => hnode_rest q hq (strNeg_inj h)⟩
    refine ⟨HG, by rw [hstep]; exact hHG, ?_, ?_⟩
    · intro q hq
      rcases List.mem_cons.mp hq with h | h
      · subst h
        constructor
        · rw [hother (node ++ "pos") hheadP, f1]
          simp
        · rw [hother (node ++ "neg") hheadN, f2]
          simp
      · exact hbuckets q h
    · intro k hk
      have hkrest : ∀ q ∈ rest, k ≠ q.1 ++ "pos" ∧ k ≠ q.1 ++ "neg" :=
        fun q hq => hk q (List.mem_cons_of_mem _ hq)
      have hkhead := hk (node, gws) hmemhd
      rw [hother k hkrest, f3 k hkhead.1 hkhead.2,
        dlookup_dinsert_ne hkhead.2, dlookup_dinsert_ne hkhead.1]

/-- C1: for every weight matrix with pairwise-distinct node names, at
least two genes per node, and per-node distinct gene names,
`find_heavy_genes` succeeds, creates both `<node>pos` and `<node>neg`
buckets for every node (possibly empty), and partitions each node's gene
set into three pairwise-disjoint classes covering it exactly: genes with
`weight > mean + 2.5·σ` in the pos bucket, genes with
`weight < mean − 2.5·σ` in the neg bucket, all other genes in neither. -/
theorem claim_C1 {wm : WMatrix}
    (hnd : (keysOf wm).Nodup)
    (h2 : ∀ p ∈ wm, 2 ≤ p.2.length)
    (hgnd : ∀ p ∈ wm, (keysOf p.2).Nodup) :
    ∃ HG, find_heavy_genes wm = .ok HG ∧
      ∀ p ∈ wm, ∃ posL negL,
        dlookup (p.1 ++ "pos") HG = some posL ∧
        dlookup (p.1 ++ "neg") HG = some negL ∧
        (∀ q, q ∈ posL ↔ (q ∈ p.2 ∧
          heavyPos (qmean (p.2.map Prod.snd)) (sampleVar (p.2.map Prod.snd)) q.2)) ∧
        (∀ q, q ∈ negL ↔ (q ∈ p.2 ∧
          heavyNeg (qmean (p.2.map Prod.snd)) (sampleVar (p.2.map Prod.snd)) q.2)) ∧
        (∀ g, g ∈ keysOf p.2 ↔ (g ∈ keysOf posL ∨ g ∈ keysOf negL ∨
          g ∈ keysOf (filterMid (qmean (p.2.map Prod.snd))
            (sampleVar (p.2.map Prod.snd)) p.2))) ∧
        (∀ g, ¬(g ∈ keysOf posL ∧ g ∈ keysOf negL)) ∧
        (∀ g, ¬(g ∈ keysOf posL ∧ g ∈ keysOf (filterMid (qmean (p.2.map Prod.snd))
          (sampleVar (p.2.map Prod.snd)) p.2))) ∧
        (∀ g, ¬(g ∈ keysOf negL ∧ g ∈ keysOf (filterMid (qmean (p.2.map Prod.snd))
          (sampleVar (p.2.map Prod.snd)) p.2))) := by
  obtain ⟨HG, hHG, hbuckets, _⟩ := fhgLoop_spec wm [] hnd h2 hgnd
  refine ⟨HG, hHG, ?_⟩
  intro p hp
  obtain ⟨hpos, hneg⟩ := hbuckets p hp
  have hkey := hgnd p hp
  refine ⟨_, _, hpos, hneg, ?_, ?_, ?_, ?_, ?_, ?_⟩
  · intro q
    simp [filterPos, List.mem_filter]
  · intro q
    simp [filterNeg, List.mem_filter]
  · intro g
    constructor
    · intro hg
      obtain ⟨q, hq, hfst⟩ := List.mem_map.mp hg
      by_cases hP : heavyPos (qmean (p.2.map Prod.snd)) (sampleVar (p.2.map Prod.snd)) q.2
      · exact Or.inl (mem_keysOf_filter.mpr ⟨q.2, by simpa [← hfst] using hq, by simp [hP]⟩)
      · by_cases hN : heavyNeg (qmean (p.2.map Prod.snd)) (sampleVar (p.2.map Prod.snd)) q.2
        · exact Or.inr (Or.inl (mem_keysOf_filter.mpr
            ⟨q.2, by simpa [← hfst] using hq, by simp [hN]⟩))
        · exact Or.inr (Or.inr (mem_keysOf_filter.mpr
            ⟨q.2, by simpa [← hfst] using hq, by simp [filterMid, hP, hN]⟩))
    · rintro (hg | hg | hg) <;>
      · obtain ⟨w, hw, _⟩ := mem_keysOf_filter.mp hg
        exact List.mem_map.mpr ⟨(g, w), hw, rfl⟩
  · rintro g ⟨h1, h2'⟩
    obtain ⟨w, hw, hc⟩ := mem_keysOf_filter.mp h1
    obtain ⟨w', hw', hc'⟩ := mem_keysOf_filter.mp h2'
    rw [nodup_keys_val_eq hkey hw hw'] at hc
    simp only [decide_eq_true_eq] at hc hc'
    exact absurd (lt_trans hc'.1 hc.1) (lt_irrefl _)
  · rintro g ⟨h1, h2'⟩
    obtain ⟨w, hw, hc⟩ := mem_keysOf_filter.mp h1
    obtain ⟨w', hw', hc'⟩ := mem_keysOf_filter.mp h2'
    rw [nodup_keys_val_eq hkey hw hw'] at hc
    simp only [filterMid, decide_eq_true_eq] at hc hc'
    exact hc'.1 hc
  · rintro g ⟨h1, h2'⟩
    obtain ⟨w, hw, hc⟩ := mem_keysOf_filter.mp h1
    obtain ⟨w', hw', hc'⟩ := mem_keysOf_filter.mp h2'
    rw [nodup_keys_val_eq hkey hw hw'] at hc
    simp only [filterMid, decide_eq_true_eq] at hc hc'
    exact hc'.2 hc

/-- C7: for a node with weights [1, 2, 100], the gene of weight 100 lands
in neither bucket (100 does not exceed mean + 2.5·σ ≈ 151), so both
buckets come out empty; for a node with weights [0,…,0,100] (nine zeros),
the gene of weight 100 exceeds mean + 2.5·σ = 85 and lands in the pos
bucket. -/
theorem claim_C7 :
    find_heavy_genes [("node1", [("g1", 1), ("g2", 2), ("g3", 100)])] =
      .ok [("node1pos", []), ("node1neg", [])] ∧
    find_heavy_genes [("node1", [("g1", 0), ("g2", 0), ("g3", 0), ("g4", 0), ("g5", 0),
        ("g6", 0), ("g7", 0), ("g8", 0), ("g9", 0), ("g10", 100)])] =
      .ok [("node1pos", [("g10", 100)]), ("node1neg", [])] := by
  constructor <;>
    (norm_num [find_heavy_genes, fhgLoop, fhgNodeFold, heavyPos, heavyNeg, qmean,
      sampleVar, dinsert, updAt]; decide)

/-- Witness for C1 at a concrete two-gene weight matrix. -/
theorem claim_C1_witness :
    ∃ HG, find_heavy_genes [("n1", [("gA", 0), ("gB", 100)])] = .ok HG ∧
      ∀ p ∈ ([("n1", [("gA", 0), ("gB", 100)])] : WMatrix), ∃ posL negL,
        dlookup (p.1 ++ "pos") HG = some posL ∧
        dlookup (p.1 ++ "neg") HG = some negL ∧
        (∀ q, q ∈ posL ↔ (q ∈ p.2 ∧
          heavyPos (qmean (p.2.map Prod.snd)) (sampleVar (p.2.map Prod.snd)) q.2)) ∧
        (∀ q, q ∈ negL ↔ (q ∈ p.2 ∧
          heavyNeg (qmean (p.2.map Prod.snd)) (sampleVar (p.2.map Prod.snd)) q.2)) ∧
        (∀ g, g ∈ keysOf p.2 ↔ (g ∈ keysOf posL ∨ g ∈ keysOf negL ∨
          g ∈ keysOf (filterMid (qmean (p.2.map Prod.snd))
            (sampleVar (p.2.map Prod.snd)) p.2))) ∧
        (∀ g, ¬(g ∈ keysOf posL ∧ g ∈ keysOf negL)) ∧
        (∀ g, ¬(g ∈ keysOf posL ∧ g ∈ keysOf (filterMid (qmean (p.2.map Prod.snd))
          (sampleVar (p.2.map Prod.snd)) p.2))) ∧
        (∀ g, ¬(g ∈ keysOf negL ∧ g ∈ keysOf (filterMid (qmean (p.2.map Prod.snd))
          (sampleVar (p.2.map Prod.snd)) p.2))) :=
  @claim_C1 [("n1", [("gA", 0), ("gB", 100)])] (by decide) (by decide) (by decide)

/-- Witness for C4 at a concrete two-node, two-gene file. -/
theorem claim_C4_witness :
    ∃ M, get_weight_matrix pfW [["", "n1", "n2"], ["gA", "1", "2"], ["gB", "3", "4"]] =
        .ok M ∧
      keysOf M = ["n1", "n2"] ∧
      ∀ q ∈ ([("gA", [1, 2]), ("gB", [3, 4])] : List (String × List ℚ)),
        ∀ (i : ℕ) (hi : i < (["n1", "n2"] : List String).length) (hwi : i < q.2.length),
        ∃ d, dlookup ((["n1", "n2"] : List String).get ⟨i, hi⟩) M = some d ∧
          dlookup q.1 d = some (q.2.get ⟨i, hwi⟩) :=
  @claim_C4 pfW "" ["n1", "n2"] [["gA", "1", "2"], ["gB", "3", "4"]]
    [("gA", [1, 2]), ("gB", [3, 4])] (by decide) (by decide)
    (List.Forall₂.cons (by decide) (List.Forall₂.cons (by decide) List.Forall₂.nil))

/-- Witness for C5: a short-column line errors citing line 3; an
unparseable weight token errors citing the token. -/
theorem claim_C5_witness :
    get_weight_matrix pfW [["", "n1"], ["gA", "1"], ["gB"]] = .error (.badColumns 3) ∧
    get_weight_matrix pfW [["", "n1"], ["gA", "1"], ["gB", "xx"]] = .error (.badFloat "xx") :=
  ⟨(@claim_C5 pfW "" ["n1"] [["gA", "1"]] [] (by decide)).1 ["gB"] (by decide),
   (@claim_C5 pfW "" ["n1"] [["gA", "1"]] [] (by decide)).2 "gB" [] "xx" [] (by decide)
     (by decide) (by decide)⟩

/-- Witness for C9: the later `gA` line overwrites the earlier weight. -/
theorem claim_C9_witness :
    ∃ M', get_weight_matrix pfW [["", "n1"], ["gA", "1"], ["gA", "2"]] = .ok M' ∧
      ∃ d', dlookup "n1" M' = some d' ∧ dlookup "gA" d' = some 2 := by
  obtain ⟨M', h1, d', h2, h3, _⟩ := @claim_C9 pfW "" ["n1"] [["gA", "1"]]
    [("n1", [("gA", 1)])] ["gA", "2"] "gA" [2] 0 [("gA", 1)] 1
    (by decide) (by decide) (by decide) (by decide) (by decide) (by decide) (by decide)
  exact ⟨M', h1, d', h2, h3⟩

/-! ## Participation-table lemmas -/

theorem keyMatch_iff_rowKey {r : PartRow} {s g : ℕ} {t : String} :
    keyMatch r s g t ↔ rowKey r = (s, g, t) := by
  obtain ⟨rs, rg, rt, rw⟩ := r
  simp [keyMatch, rowKey]

theorem dbLookup_upsert_self (s g : ℕ) (t : String) (w : ℚ) :
    ∀ db, dbLookup s g t (upsert s g t w db) = some w := by
  intro db
  induction db with
  | nil => simp [upsert, dbLookup, keyMatch]
  | cons r rest ih =>
    by_cases h : keyMatch r s g t
    · rw [show upsert s g t w (r :: rest) = ⟨s, g, t, w⟩ :: rest from by simp [upsert, h]]
      simp [dbLookup, keyMatch]
    · rw [show upsert s g t w (r :: rest) = r :: upsert s g t w rest from by
        simp [upsert, h]]
      simp [dbLookup, h, ih]

theorem dbLookup_upsert_ne {s' g' : ℕ} {t' : String} {s g : ℕ} {t : String}
    (hne : (s', g', t') ≠ ((s, g, t) : ℕ × ℕ × String)) (w : ℚ) :
    ∀ db, dbLookup s' g' t' (upsert s g t w db) = dbLookup s' g' t' db := by
  have hnm : ¬ keyMatch ⟨s, g, t, w⟩ s' g' t' := fun hk =>
    hne (keyMatch_iff_rowKey.mp hk).symm
  intro db
  induction db with
  | nil => simp [upsert, dbLookup, hnm]
  | cons r rest ih =>
    by_cases h : keyMatch r s g t
    · have hk := keyMatch_iff_rowKey.mp h
      have hnr : ¬ keyMatch r s' g' t' := fun hk' =>
        hne ((keyMatch_iff_rowKey.mp hk').symm.trans hk)
      rw [show upsert s g t w (r :: rest) = ⟨s, g, t, w⟩ :: rest from by simp [upsert, h]]
      simp [dbLookup, hnm, hnr]
    · rw [show upsert s g t w (r :: rest) = r :: upsert s g t w rest from by
        simp [upsert, h]]
      simp [dbLookup, ih]

theorem upsert_noop {s g : ℕ} {t : String} {w : ℚ} :
    ∀ {db}, dbLookup s g t db = some w → upsert s g t w db = db := by
  intro db
  induction db with
  | nil => intro h; simp [dbLookup] at h
  | cons r rest ih =>
    obtain ⟨rs, rg, rt, rw⟩ := r
    intro h
    by_cases hk : keyMatch ⟨rs, rg, rt, rw⟩ s g t
    · obtain ⟨h1, h2, h3⟩ := hk
      subst h1; subst h2; subst h3
      have hk' : keyMatch (⟨rs, rg, rt, rw⟩ : PartRow) rs rg rt := ⟨rfl, rfl, rfl⟩
      simp [dbLookup, hk'] at h
      subst h
      simp [upsert, hk']
    · simp [dbLookup, hk] at h
      simp [upsert, hk, ih h]

theorem map_rowKey_upsert (s g : ℕ) (t : String) (w : ℚ) :
    ∀ db, (upsert s g t w db).map rowKey =
      if (s, g, t) ∈ db.map rowKey then db.map rowKey
      else db.map rowKey ++ [(s, g, t)] := by
  intro db
  induction db with
  | nil => simp [upsert, rowKey]
  | cons r rest ih =>
    by_cases h : keyMatch r s g t
    · have hk := keyMatch_iff_rowKey.mp h
      have hmem : (s, g, t) ∈ (r :: rest).map rowKey := by
        rw [List.map_cons, hk]
        exact List.mem_cons_self _ _
      rw [show upsert s g t w (r :: rest) = ⟨s, g, t, w⟩ :: rest from by simp [upsert, h],
        if_pos hmem, List.map_cons, List.map_cons, hk]
      rfl
    · have hne : rowKey r ≠ (s, g, t) := fun heq => h (keyMatch_iff_rowKey.mpr heq)
      have hstep : upsert s g t w (r :: rest) = r :: upsert s g t w rest := by
        simp [upsert, h]
      by_cases hm : (s, g, t) ∈ rest.map rowKey
      · have hmem : (s, g, t) ∈ (r :: rest).map rowKey := by
          rw [List.map_cons]
          exact List.mem_cons_of_mem _ hm
        rw [hstep, List.map_cons, ih, if_pos hm, if_pos hmem, List.map_cons]
      · have hmem : (s, g, t) ∉ (r :: rest).map rowKey := by
          rw [List.map_cons]
          intro hc
          rcases List.mem_cons.mp hc with hc | hc
          · exact hne hc.symm
          · exact hm hc
        rw [hstep, List.map_cons, ih, if_neg hm, if_neg hmem, List.map_cons,
          List.cons_append]

theorem partUnique_upsert {db : PartDB} (h : PartUnique db) (s g : ℕ) (t : String)
    (w : ℚ) : PartUnique (upsert s g t w db) := by
  unfold PartUnique at h ⊢
  rw [map_rowKey_upsert]
  by_cases hm : (s, g, t) ∈ db.map rowKey
  · rw [if_pos hm]
    exact h
  · rw [if_neg hm]
    exact List.nodup_append.mpr ⟨h, List.nodup_singleton _, by
      intro a ha hb
      simp only [List.mem_singleton] at hb
      exact hm (hb ▸ ha)⟩

theorem importBucket_pres {cat : Catalog} {sig : ℕ} {pt : String} {s0 g0 : ℕ}
    {t0 : String} :
    ∀ (gws : GeneDict) (db : PartDB),
    (∀ q ∈ gws, ∀ gid, cat.geneOf q.1 = .found gid →
      (s0, g0, t0) ≠ ((sig, gid, pt) : ℕ × ℕ × String)) →
    dbLookup s0 g0 t0 (importBucket cat sig pt db gws) = dbLookup s0 g0 t0 db := by
  intro gws
  induction gws with
  | nil => intro db _; rfl
  | cons q rest ih =>
    intro db hcond
    cases hq : cat.geneOf q.1 with
    | found gid =>
      have step : importBucket cat sig pt db (q :: rest) =
          importBucket cat sig pt (upsert sig gid pt q.2 db) rest := by
        simp [importBucket, hq]
      rw [step, ih _ (fun q' hq' => hcond q' (List.mem_cons_of_mem _ hq')),
        dbLookup_upsert_ne (hcond q (List.mem_cons_self _ _) gid hq)]
    | notFound =>
      have step : importBucket cat sig pt db (q :: rest) =
          importBucket cat sig pt db rest := by
        simp [importBucket, hq]
      rw [step, ih _ (fun q' hq' => hcond q' (List.mem_cons_of_mem _ hq'))]
    | multiple =>
      have step : importBucket cat sig pt db (q :: rest) =
          importBucket cat sig pt db rest := by
        simp [importBucket, hq]
      rw [step, ih _ (fun q' hq' => hcond q' (List.mem_cons_of_mem _ hq'))]

theorem importBucket_lookup {cat : Catalog} {sig : ℕ} {pt : String}
    (hgeneinj : ∀ a b gid, cat.geneOf a = .found gid → cat.geneOf b = .found gid → a = b) :
    ∀ (gws : GeneDict), (keysOf gws).Nodup →
    ∀ (db : PartDB), ∀ q ∈ gws, ∀ gid, cat.geneOf q.1 = .found gid →
    dbLookup sig gid pt (importBucket cat sig pt db gws) = some q.2 := by
  intro gws
  induction gws with
  | nil => intro _ db q hq; simp at hq
  | cons q0 rest ih =>
    intro hnd db q hq gid hgid
    have hnd' : (q0.1 :: keysOf rest).Nodup := hnd
    rcases List.mem_cons.mp hq with h | h
    · subst h
      have step : importBucket cat sig pt db (q :: rest) =
          importBucket cat sig pt (upsert sig gid pt q.2 db) rest := by
        simp [importBucket, hgid]
      rw [step, importBucket_pres rest _ ?hcond, dbLookup_upsert_self]
      case hcond =>
        intro q' hq' gid' hgid' heq
        have hgg : gid = gid' := by
          simpa using congrArg (fun p => p.2.1) heq
        rw [hgg] at hgid
        have hname : q.1 = q'.1 := hgeneinj q.1 q'.1 gid' hgid hgid'
        exact (List.nodup_cons.mp hnd').1 (hname ▸ List.mem_map.mpr ⟨q', hq', rfl⟩)
    · cases hq0 : cat.geneOf q0.1 with
      | found gid0 =>
        have step : importBucket cat sig pt db (q0 :: rest) =
            importBucket cat sig pt (upsert sig gid0 pt q0.2 db) rest := by
          simp [importBucket, hq0]
        rw [step]
        exact ih (List.nodup_cons.mp hnd').2 _ q h gid hgid
      | notFound =>
        have step : importBucket cat sig pt db (q0 :: rest) =
            importBucket cat sig pt db rest := by
          simp [importBucket, hq0]
        rw [step]
        exact ih (List.nodup_cons.mp hnd').2 _ q h gid hgid
      | multiple =>
        have step : importBucket cat sig pt db (q0 :: rest) =
            importBucket cat sig pt db rest := by
          simp [importBucket, hq0]
        rw [step]
        exact ih (List.nodup_cons.mp hnd').2 _ q h gid hgid

theorem importBucket_noop {cat : Catalog} {sig : ℕ} {pt : String} :
    ∀ (gws : GeneDict) (db : PartDB),
    (∀ q ∈ gws, ∀ gid, cat.geneOf q.1 = .found gid →
      dbLookup sig gid pt db = some q.2) →
    importBucket cat sig pt db gws = db := by
  intro gws
  induction gws with
  | nil => intro db _; rfl
  | cons q rest ih =>
    intro db hsat
    cases hq : cat.geneOf q.1 with
    | found gid =>
      have step : importBucket cat sig pt db (q :: rest) =
          importBucket cat sig pt (upsert sig gid pt q.2 db) rest := by
        simp [importBucket, hq]
      rw [step, upsert_noop (hsat q (List.mem_cons_self _ _) gid hq)]
      exact ih db (fun q' hq' => hsat q' (List.mem_cons_of_mem _ hq'))
    | notFound =>
      have step : importBucket cat sig pt db (q :: rest) =
          importBucket cat sig pt db rest := by
        simp [importBucket, hq]
      rw [step]
      exact ih db (fun q' hq' => hsat q' (List.mem_cons_of_mem _ hq'))
    | multiple =>
      have step : importBucket cat sig pt db (q :: rest) =
          importBucket cat sig pt db rest := by
        simp [importBucket, hq]
      rw [step]
      exact ih db (fun q' hq' => hsat q' (List.mem_cons_of_mem _ hq'))

theorem importBucket_unique {cat : Catalog} {sig : ℕ} {pt : String} :
    ∀ (gws : GeneDict) (db : PartDB), PartUnique db →
    PartUnique (importBucket cat sig pt db gws) := by
  intro gws
  induction gws with
  | nil => intro db h; exact h
  | cons q rest ih =>
    intro db h
    cases hq : cat.geneOf q.1 with
    | found gid =>
      have step : importBucket cat sig pt db (q :: rest) =
          importBucket cat sig pt (upsert sig gid pt q.2 db) rest := by
        simp [importBucket, hq]
      rw [step]
      exact ih _ (partUnique_upsert h sig gid pt q.2)
    | notFound =>
      have step : importBucket cat sig pt db (q :: rest) =
          importBucket cat sig pt db rest := by
        simp [importBucket, hq]
      rw [step]
      exact ih _ h
    | multiple =>
      have step : importBucket cat sig pt db (q :: rest) =
          importBucket cat sig pt db rest := by
        simp [importBucket, hq]
      rw [step]
      exact ih _ h

theorem importBucket_filterResolvable {cat : Catalog} {sig : ℕ} {pt : String} :
    ∀ (gws : GeneDict) (db : PartDB),
    importBucket cat sig pt db (gws.filter fun q => resolvable cat q.1) =
      importBucket cat sig pt db gws := by
  intro gws
  induction gws with
  | nil => intro db; rfl
  | cons q rest ih =>
    intro db
    cases hq : cat.geneOf q.1 with
    | found gid =>
      simp only [importBucket, List.filter, resolvable, hq] at ih ⊢
      rw [List.foldl_cons, List.foldl_cons]
      simp only [hq]
      exact ih (upsert sig gid pt q.2 db)
    | notFound => simp [importBucket, List.filter, resolvable, hq] at ih ⊢; exact ih db
    | multiple => simp [importBucket, List.filter, resolvable, hq] at ih ⊢; exact ih db

theorem update_db_ok {cat : Catalog} {ml pt : String} :
    ∀ (hg : WMatrix) (db : PartDB),
    (∀ p ∈ hg, (cat.sigOf ml p.1).isSome) →
    ∃ db', update_db cat ml pt db hg = .ok db' := by
  intro hg
  induction hg with
  | nil => intro db _; exact ⟨db, rfl⟩
  | cons p rest ih =>
    intro db hsig
    obtain ⟨sn, gws⟩ := p
    obtain ⟨s, hs⟩ := Option.isSome_iff_exists.mp (hsig (sn, gws) (List.mem_cons_self _ _))
    have step : update_db cat ml pt db ((sn, gws) :: rest) =
        update_db cat ml pt (importBucket cat s pt db gws) rest := by
      simp [update_db, hs]
    rw [step]
    exact ih _ (fun q hq => hsig q (List.mem_cons_of_mem _ hq))

theorem update_db_ok_sigs {cat : Catalog} {ml pt : String} :
    ∀ (hg : WMatrix) (db db' : PartDB),
    update_db cat ml pt db hg = .ok db' →
    ∀ p ∈ hg, (cat.sigOf ml p.1).isSome := by
  intro hg
  induction hg with
  | nil => intro db db' _ p hp; simp at hp
  | cons p0 rest ih =>
    intro db db' h p hp
    obtain ⟨sn, gws⟩ := p0
    cases hs : cat.sigOf ml sn with
    | none => simp [update_db, hs] at h
    | some s =>
      have step : update_db cat ml pt db ((sn, gws) :: rest) =
          update_db cat ml pt (importBucket cat s pt db gws) rest := by
        simp [update_db, hs]
      rw [step] at h
      rcases List.mem_cons.mp hp with h1 | h1
      · subst h1; simp [hs]
      · exact ih _ _ h p h1

theorem update_db_pres {cat : Catalog} {ml pt : String} {s0 g0 : ℕ} {t0 : String} :
    ∀ (hg : WMatrix) (db db' : PartDB),
    update_db cat ml pt db hg = .ok db' →
    (∀ p ∈ hg, ∀ s, cat.sigOf ml p.1 = some s → s0 ≠ s) →
    dbLookup s0 g0 t0 db' = dbLookup s0 g0 t0 db := by
  intro hg
  induction hg with
  | nil => intro db db' h _; cases h; rfl
  | cons p0 rest ih =>
    intro db db' h hcond
    obtain ⟨sn, gws⟩ := p0
    cases hs : cat.sigOf ml sn with
    | none => simp [update_db, hs] at h
    | some s =>
      have step : update_db cat ml pt db ((sn, gws) :: rest) =
          update_db cat ml pt (importBucket cat s pt db gws) rest := by
        simp [update_db, hs]
      rw [step] at h
      rw [ih _ _ h (fun q hq => hcond q (List.mem_cons_of_mem _ hq)),
        importBucket_pres gws db]
      intro q _ gid _ heq
      exact hcond (sn, gws) (List.mem_cons_self _ _) s hs
        (by simpa using congrArg (fun p => p.1) heq)

theorem update_db_lookup {cat : Catalog} {ml pt : String}
    (hsiginj : ∀ n1 n2 s, cat.sigOf ml n1 = some s → cat.sigOf ml n2 = some s → n1 = n2)
    (hgeneinj : ∀ a b gid, cat.geneOf a = .found gid → cat.geneOf b = .found gid → a = b) :
    ∀ (hg : WMatrix), (keysOf hg).Nodup → (∀ p ∈ hg, (keysOf p.2).Nodup) →
    ∀ (db db' : PartDB), update_db cat ml pt db hg = .ok db' →
    ∀ p ∈ hg, ∀ s, cat.sigOf ml p.1 = some s → ∀ q ∈ p.2, ∀ gid,
      cat.geneOf q.1 = .found gid → dbLookup s gid pt db' = some q.2 := by
  intro hg
  induction hg with
  | nil => intro _ _ db db' _ p hp; simp at hp
  | cons p0 rest ih =>
    intro hnd hgnd db db' h p hp s hsig q hq gid hgid
    obtain ⟨sn, gws⟩ := p0
    have hnd' : (sn :: keysOf rest).Nodup := hnd
    cases hs : cat.sigOf ml sn with
    | none => simp [update_db, hs] at h
    | some s1 =>
      have step : update_db cat ml pt db ((sn, gws) :: rest) =
          update_db cat ml pt (importBucket cat s1 pt db gws) rest := by
        simp [update_db, hs]
      rw [step] at h
      rcases List.mem_cons.mp hp with h1 | h1
      · subst h1
        have hsig' : cat.sigOf ml sn = some s := hsig
        have hs1 : s = s1 := Option.some.inj (hsig'.symm.trans hs)
        subst hs1
        rw [update_db_pres rest _ _ h ?hcond]
        · have hgw : (keysOf gws).Nodup := hgnd (sn, gws) (List.mem_cons_self _ _)
          exact importBucket_lookup hgeneinj gws hgw db q hq gid hgid
        case hcond =>
          intro p' hp' s' hs' heq
          have heq2 : sn = p'.1 := hsiginj sn p'.1 s' (heq ▸ hs) hs'
          exact (List.nodup_cons.mp hnd').1 (heq2 ▸ List.mem_map.mpr ⟨p', hp', rfl⟩)
      · exact ih (List.nodup_cons.mp hnd').2
          (fun p' hp' => hgnd p' (List.mem_cons_of_mem _ hp')) _ _ h p h1 s hsig q hq gid hgid

theorem update_db_noop {cat : Catalog} {ml pt : String} :
    ∀ (hg : WMatrix) (db : PartDB),
    (∀ p ∈ hg, ∀ s, cat.sigOf ml p.1 = some s → ∀ q ∈ p.2, ∀ gid,
      cat.geneOf q.1 = .found gid → dbLookup s gid pt db = some q.2) →
    (∀ p ∈ hg, (cat.sigOf ml p.1).isSome) →
    update_db cat ml pt db hg = .ok db := by
  intro hg
  induction hg with
  | nil => intro db _ _; rfl
  | cons p0 rest ih =>
    intro db hsat hsig
    obtain ⟨sn, gws⟩ := p0
    obtain ⟨s, hs⟩ := Option.isSome_iff_exists.mp (hsig (sn, gws) (List.mem_cons_self _ _))
    have hb : importBucket cat s pt db gws = db :=
      importBucket_noop gws db
        (fun q hq gid hgid => hsat (sn, gws) (List.mem_cons_self _ _) s hs q hq gid hgid)
    have step : update_db cat ml pt db ((sn, gws) :: rest) =
        update_db cat ml pt (importBucket cat s pt db gws) rest := by
      simp [update_db, hs]
    rw [step, hb]
    exact ih db (fun p hp => hsat p (List.mem_cons_of_mem _ hp))
      (fun p hp => hsig p (List.mem_cons_of_mem _ hp))

theorem update_db_unique {cat : Catalog} {ml pt : String} :
    ∀ (hg : WMatrix) (db db' : PartDB),
    update_db cat ml pt db hg = .ok db' → PartUnique db → PartUnique db' := by
  intro hg
  induction hg with
  | nil => intro db db' h hu; cases h; exact hu
  | cons p0 rest ih =>
    intro db db' h hu
    obtain ⟨sn, gws⟩ := p0
    cases hs : cat.sigOf ml sn with
    | none => simp [update_db, hs] at h
    | some s =>
      have step : update_db cat ml pt db ((sn, gws) :: rest) =
          update_db cat ml pt (importBucket cat s pt db gws) rest := by
        simp [update_db, hs]
      rw [step] at h
      exact ih _ _ h (importBucket_unique gws db hu)

theorem update_db_filterResolvable {cat : Catalog} {ml pt : String} :
    ∀ (hg : WMatrix) (db : PartDB),
    update_db cat ml pt db (filterResolvable cat hg) = update_db cat ml pt db hg := by
  intro hg
  induction hg with
  | nil => intro db; rfl
  | cons p0 rest ih =>
    intro db
    obtain ⟨sn, gws⟩ := p0
    cases hs : cat.sigOf ml sn with
    | none => simp [filterResolvable, update_db, hs]
    | some s =>
      simp only [filterResolvable, List.map_cons] at ih ⊢
      have stepL : update_db cat ml pt db
          ((sn, gws.filter fun q => resolvable cat q.1) ::
            rest.map fun p => (p.1, p.2.filter fun q => resolvable cat q.1)) =
          update_db cat ml pt
            (importBucket cat s pt db (gws.filter fun q => resolvable cat q.1))
            (rest.map fun p => (p.1, p.2.filter fun q => resolvable cat q.1)) := by
        simp [update_db, hs]
      have stepR : update_db cat ml pt db ((sn, gws) :: rest) =
          update_db cat ml pt (importBucket cat s pt db gws) rest := by
        simp [update_db, hs]
      rw [stepL, stepR, importBucket_filterResolvable, ih]

/-! ## Classifier output is well-keyed -/

theorem fhgNodeFold_inv (P : WMatrix → Prop)
    (hupd : ∀ n g w m, P m → P (updAt n g w m)) :
    ∀ (gws : GeneDict) (posName negName : String) (mean var : ℚ) (hg : WMatrix),
    P hg → P (fhgNodeFold posName negName mean var gws hg) := by
  intro gws
  induction gws with
  | nil => intro _ _ _ _ hg h; exact h
  | cons p rest ih =>
    intro posName negName mean var hg h
    by_cases hP : heavyPos mean var p.2
    · have step : fhgNodeFold posName negName mean var (p :: rest) hg =
          fhgNodeFold posName negName mean var rest (updAt posName p.1 p.2 hg) := by
        simp [fhgNodeFold, hP]
      rw [step]
      exact ih posName negName mean var _ (hupd _ _ _ _ h)
    · by_cases hN : heavyNeg mean var p.2
      · have step : fhgNodeFold posName negName mean var (p :: rest) hg =
            fhgNodeFold posName negName mean var rest (updAt negName p.1 p.2 hg) := by
          simp [fhgNodeFold, hP, hN]
        rw [step]
        exact ih posName negName mean var _ (hupd _ _ _ _ h)
      · have step : fhgNodeFold posName negName mean var (p :: rest) hg =
            fhgNodeFold posName negName mean var rest hg := by
          simp [fhgNodeFold, hP, hN]
        rw [step]
        exact ih posName negName mean var hg h

theorem fhgLoop_inv (P : WMatrix → Prop)
    (hins : ∀ k m, P m → P (dinsert k [] m))
    (hupd : ∀ n g w m, P m → P (updAt n g w m)) :
    ∀ (wm hg HG : WMatrix), P hg → fhgLoop hg wm = .ok HG → P HG := by
  intro wm
  induction wm with
  | nil =>
    intro hg HG h hloop
    simp [fhgLoop] at hloop
    exact hloop ▸ h
  | cons p rest ih =>
    intro hg HG h hloop
    obtain ⟨node, gws⟩ := p
    by_cases hlen : (gws.map Prod.snd).length < 2
    · simp only [List.length_map] at hlen
      simp [fhgLoop, hlen] at hloop
    · have step : fhgLoop hg ((node, gws) :: rest) =
          fhgLoop (fhgNodeFold (node ++ "pos") (node ++ "neg")
            (qmean (gws.map Prod.snd)) (sampleVar (gws.map Prod.snd)) gws
            (dinsert (node ++ "neg") [] (dinsert (node ++ "pos") [] hg))) rest := by
        simp only [List.length_map] at hlen
        simp [fhgLoop, hlen]
      rw [step] at hloop
      exact ih _ HG
        (fhgNodeFold_inv P hupd gws _ _ _ _ _ (hins _ _ (hins _ _ h))) hloop

theorem fhg_nodups {wm HG : WMatrix} (h : find_heavy_genes wm = .ok HG) :
    (keysOf HG).Nodup ∧ ∀ p ∈ HG, (keysOf p.2).Nodup := by
  refine fhgLoop_inv (fun m => (keysOf m).Nodup ∧ ∀ p ∈ m, (keysOf p.2).Nodup)
    ?_ ?_ wm [] HG ⟨by simp [keysOf], by simp⟩ h
  · intro k m hm
    exact ⟨nodup_keysOf_dinsert hm.1 [],
      dinsert_val_inv (fun d => (keysOf d).Nodup) hm.2 (by simp [keysOf]) k⟩
  · intro n g w m hm
    refine ⟨?_, updAt_val_nodup hm.2 n g w⟩
    rw [keysOf_updAt]
    exact hm.1

/-- C2: running `create_or_update_participation` twice with the identical
file, model, and participation type (and an unchanged catalog that keys
signatures and genes uniquely) is idempotent — the second run succeeds and
returns exactly the state the first run produced — and every write
preserves the at-most-one-row-per-(signature, gene, participation_type)
invariant. -/
theorem claim_C2 {cat : Catalog} {pf : String → Option ℚ} {ml pt : String}
    {file : List (List String)} {db0 db1 : PartDB}
    (hsiginj : ∀ n1 n2 s, cat.sigOf ml n1 = some s → cat.sigOf ml n2 = some s → n1 = n2)
    (hgeneinj : ∀ a b gid, cat.geneOf a = .found gid → cat.geneOf b = .found gid → a = b)
    (h1 : create_or_update_participation cat pf ml pt file db0 = .ok db1) :
    create_or_update_participation cat pf ml pt file db1 = .ok db1 ∧
    (PartUnique db0 → PartUnique db1) ∧
    (∀ (db : PartDB) (s g : ℕ) (t : String) (w : ℚ),
      PartUnique db → PartUnique (upsert s g t w db)) := by
  by_cases hm : cat.hasModel ml = false
  · simp [create_or_update_participation, hm] at h1
  · by_cases hp : cat.hasPType pt = false
    · simp [create_or_update_participation, hm, hp] at h1
    · cases hwm : get_weight_matrix pf file with
      | error e => simp [create_or_update_participation, hm, hp, hwm] at h1
      | ok wm =>
        cases hhg : find_heavy_genes wm with
        | error e => simp [create_or_update_participation, hm, hp, hwm, hhg] at h1
        | ok hg =>
          cases hdb : update_db cat ml pt db0 hg with
          | error e =>
            obtain ⟨sn, dbp⟩ := e
            simp [create_or_update_participation, hm, hp, hwm, hhg, hdb] at h1
          | ok db1' =>
            have hdb1 : db1' = db1 := by
              simpa [create_or_update_participation, hm, hp, hwm, hhg, hdb] using h1
            subst hdb1
            obtain ⟨hgkeys, hgvals⟩ := fhg_nodups hhg
            have hsigs : ∀ p ∈ hg, (cat.sigOf ml p.1).isSome :=
              update_db_ok_sigs hg db0 db1' hdb
            have hsat := update_db_lookup hsiginj hgeneinj hg hgkeys hgvals db0 db1' hdb
            have hsecond : update_db cat ml pt db1' hg = .ok db1' :=
              update_db_noop hg db1' hsat hsigs
            refine ⟨?_, fun hu => update_db_unique hg db0 db1' hdb hu,
              fun db s g t w hu => partUnique_upsert hu s g t w⟩
            simp [create_or_update_participation, hm, hp, hwm, hhg, hsecond]

/-- C3: an unresolvable model or participation type aborts before any
write, and an unresolvable signature raises inside the transaction so that
every `Participation` write of the invocation is rolled back — after any
fatal error the table equals its state before the invocation. -/
theorem claim_C3 (cat : Catalog) (pf : String → Option ℚ) (ml pt : String)
    (file : List (List String)) (db : PartDB) :
    ((runParticipation cat pf ml pt file db).1.isSome →
      (runParticipation cat pf ml pt file db).2 = db) ∧
    (cat.hasModel ml = false →
      runParticipation cat pf ml pt file db = (some .modelNotFound, db)) ∧
    (cat.hasModel ml = true → cat.hasPType pt = false →
      runParticipation cat pf ml pt file db = (some .ptypeNotFound, db)) ∧
    (∀ (wm hg : WMatrix) (sn : String) (dbPartial : PartDB),
      cat.hasModel ml = true → cat.hasPType pt = true →
      get_weight_matrix pf file = .ok wm → find_heavy_genes wm = .ok hg →
      update_db cat ml pt db hg = .error (sn, dbPartial) →
      runParticipation cat pf ml pt file db = (some (.signatureNotFound sn), db)) := by
  refine ⟨?_, ?_, ?_, ?_⟩
  · intro h
    unfold runParticipation at h ⊢
    cases hc : create_or_update_participation cat pf ml pt file db with
    | error e => simp [hc]
    | ok db2 => rw [hc] at h; simp at h
  · intro hm
    unfold runParticipation
    simp [create_or_update_participation, hm]
  · intro hm hp
    unfold runParticipation
    simp [create_or_update_participation, hm, hp]
  · intro wm hg sn dbPartial hm hp hwm hhg hdb
    unfold runParticipation
    simp [create_or_update_participation, hm, hp, hwm, hhg, hdb]

/-- C8: gene-resolution failures are never fatal in either pipeline.  In
the participation upserter, whenever all signatures resolve, `update_db`
succeeds for every gene catalog, and restricting the input to its
resolvable genes does not change the result (unresolvable genes are
skipped without being persisted).  In the network importer, a line whose
genes do not all resolve is skipped — processing continues on the rest of
the file with only the line's gene pair recorded. -/
theorem claim_C8 :
    (∀ (cat : Catalog) (ml pt : String) (db : PartDB) (hg : WMatrix),
      (∀ p ∈ hg, (cat.sigOf ml p.1).isSome) →
      (∃ db', update_db cat ml pt db hg = .ok db') ∧
      update_db cat ml pt db (filterResolvable cat hg) = update_db cat ml pt db hg) ∧
    (∀ (pf : String → Option ℚ) (M : MLModelN) (geneOf : String → GeneRes)
      (cu : Bool) (ln : ℕ) (st : NetState) (a b wtok stok : String) (w : ℚ)
      (rest : List (List String)),
      ln ≠ 1 → a ≠ b → pf (stok ++ wtok) = some w → ¬(w < -1 ∨ 1 < w) →
      ¬ |w| < M.g2g_edge_cutoff →
      (a ++ "\t" ++ b) ∉ st.pairs →
      ¬(M.directed_g2g_edge = false ∧ (b ++ "\t" ++ a) ∈ st.pairs) →
      ((∀ gid, geneOf a ≠ .found gid) ∨ (∀ gid, geneOf b ≠ .found gid)) →
      netLoop pf M geneOf cu ln st ([a, b, wtok, stok] :: rest) =
        netLoop pf M geneOf cu (ln + 1)
          { st with pairs := (a ++ "\t" ++ b) :: st.pairs } rest) := by
  constructor
  · intro cat ml pt db hg hsig
    exact ⟨update_db_ok hg db hsig, update_db_filterResolvable hg db⟩
  · intro pf M geneOf cu ln st a b wtok stok w rest h1 hab hw hr hcut hp1 hp2 hg
    rcases hg with hga | hgb
    · cases hA : geneOf a with
      | found gid => exact absurd hA (hga gid)
      | notFound => simp [netLoop, h1, hab, hw, hr, hcut, hp1, hp2, hA]
      | multiple => simp [netLoop, h1, hab, hw, hr, hcut, hp1, hp2, hA]
    · cases hA : geneOf a with
      | found gid1 =>
        cases hB : geneOf b with
        | found gid2 => exact absurd hB (hgb gid2)
        | notFound => simp [netLoop, h1, hab, hw, hr, hcut, hp1, hp2, hA, hB]
        | multiple => simp [netLoop, h1, hab, hw, hr, hcut, hp1, hp2, hA, hB]
      | notFound => simp [netLoop, h1, hab, hw, hr, hcut, hp1, hp2, hA]
      | multiple => simp [netLoop, h1, hab, hw, hr, hcut, hp1, hp2, hA]

/-- Witness for C2: empty input file, model `m`, type `t`. -/
theorem claim_C2_witness :
    create_or_update_participation catNoSig pfW "m" "t" [] [] = .ok [] ∧
    (PartUnique ([] : PartDB) → PartUnique ([] : PartDB)) ∧
    (∀ (db : PartDB) (s g : ℕ) (t : String) (w : ℚ),
      PartUnique db → PartUnique (upsert s g t w db)) :=
  @claim_C2 catNoSig pfW "m" "t" [] [] []
    (by intro n1 n2 s h1 _; simp [catNoSig] at h1)
    (by intro a b gid h1 _; simp [catNoSig] at h1)
    (by decide)

/-- Witness for C3: a missing model aborts with the table unchanged. -/
theorem claim_C3_witness :
    runParticipation catEmpty pfW "m" "t" [] [] = (some .modelNotFound, []) :=
  (claim_C3 catEmpty pfW "m" "t" [] []).2.1 rfl

/-- Witness for C8: `update_db` succeeds with an empty gene catalog, and a
line with an unresolvable gene is skipped with only its pair recorded. -/
theorem claim_C8_witness :
    ((∃ db', update_db catNoSig "m" "t" [] [] = .ok db') ∧
      update_db catNoSig "m" "t" [] (filterResolvable catNoSig []) =
        update_db catNoSig "m" "t" [] []) ∧
    netLoop pfW ⟨1 / 5, false⟩ geneOfW false 2 ⟨[], [], []⟩ [["gZ", "gX", "0.5", "+"]] =
      netLoop pfW ⟨1 / 5, false⟩ geneOfW false 3 ⟨["gZ" ++ "\t" ++ "gX"], [], []⟩ [] := by
  constructor
  · exact claim_C8.1 catNoSig "m" "t" [] [] (by simp)
  · exact claim_C8.2 pfW ⟨1 / 5, false⟩ geneOfW false 2 ⟨[], [], []⟩ "gZ" "gX" "0.5" "+"
      (1 / 2) [] (by decide) (by decide) rfl (by norm_num)
      (by rw [show |(1 / 2 : ℚ)| = 1 / 2 from abs_of_pos (by norm_num)]; norm_num)
      (by simp) (by simp) (Or.inl (fun gid h => by simp [geneOfW] at h))

/-- C6: for an undirected model, a file whose second data line repeats the
first line's gene pair in reverse order — both lines passing the
column-count, self-loop, parse, range, and cutoff checks — raises the
duplicate-pair error on the second occurrence (line 3); for a directed
model the reversed pair is not a duplicate and the import completes. -/
theorem claim_C6 {pf : String → Option ℚ} {M : MLModelN} {geneOf : String → GeneRes}
    (hdr : List String) (a b w1tok s1tok w2tok s2tok : String) {w1 w2 : ℚ}
    (hab : a ≠ b) (hta : '\t' ∉ a.data) (htb : '\t' ∉ b.data)
    (hp1 : pf (s1tok ++ w1tok) = some w1) (hp2 : pf (s2tok ++ w2tok) = some w2)
    (hr1 : ¬(w1 < -1 ∨ 1 < w1)) (hr2 : ¬(w2 < -1 ∨ 1 < w2))
    (hc1 : ¬ |w1| < M.g2g_edge_cutoff) (hc2 : ¬ |w2| < M.g2g_edge_cutoff) :
    (M.directed_g2g_edge = false →
      check_and_import pf M geneOf []
        [hdr, [a, b, w1tok, s1tok], [b, a, w2tok, s2tok]] =
        .error (.dupPair 3 a b)) ∧
    (M.directed_g2g_edge = true →
      ∃ db', check_and_import pf M geneOf []
        [hdr, [a, b, w1tok, s1tok], [b, a, w2tok, s2tok]] = .ok db') := by
  have hno : (b ++ "\t" ++ a) ≠ (a ++ "\t" ++ b) := fun h =>
    hab (tabJoin_inj htb hta h).1.symm
  have hba : b ≠ a := fun h => hab h.symm
  constructor
  · intro hdir
    cases hA : geneOf a with
    | found gid1 =>
      cases hB : geneOf b with
      | found gid2 =>
        simp [check_and_import, netLoop, hab, hba, hp1, hp2, hr1, hr2, hc1, hc2,
          hA, hB, hno, hdir, flushIfFull, BULK_SIZE]
      | notFound =>
        simp [check_and_import, netLoop, hab, hba, hp1, hp2, hr1, hr2, hc1, hc2,
          hA, hB, hno, hdir]
      | multiple =>
        simp [check_and_import, netLoop, hab, hba, hp1, hp2, hr1, hr2, hc1, hc2,
          hA, hB, hno, hdir]
    | notFound =>
      simp [check_and_import, netLoop, hab, hba, hp1, hp2, hr1, hr2, hc1, hc2,
        hA, hno, hdir]
    | multiple =>
      simp [check_and_import, netLoop, hab, hba, hp1, hp2, hr1, hr2, hc1, hc2,
        hA, hno, hdir]
  · intro hdir
    cases hA : geneOf a with
    | found gid1 =>
      cases hB : geneOf b with
      | found gid2 =>
        refine ⟨[⟨gid1, gid2, w1⟩, ⟨gid2, gid1, w2⟩], ?_⟩
        simp [check_and_import, netLoop, hab, hba, hp1, hp2, hr1, hr2, hc1, hc2,
          hA, hB, hno, hdir, flushIfFull, BULK_SIZE]
      | notFound =>
        refine ⟨[], ?_⟩
        simp [check_and_import, netLoop, hab, hba, hp1, hp2, hr1, hr2, hc1, hc2,
          hA, hB, hno, hdir]
      | multiple =>
        refine ⟨[], ?_⟩
        simp [check_and_import, netLoop, hab, hba, hp1, hp2, hr1, hr2, hc1, hc2,
          hA, hB, hno, hdir]
    | notFound =>
      cases hB : geneOf b with
      | found gid2 =>
        refine ⟨[], ?_⟩
        simp [check_and_import, netLoop, hab, hba, hp1, hp2, hr1, hr2, hc1, hc2,
          hA, hB, hno, hdir]
      | notFound =>
        refine ⟨[], ?_⟩
        simp [check_and_import, netLoop, hab, hba, hp1, hp2, hr1, hr2, hc1, hc2,
          hA, hB, hno, hdir]
      | multiple =>
        refine ⟨[], ?_⟩
        simp [check_and_import, netLoop, hab, hba, hp1, hp2, hr1, hr2, hc1, hc2,
          hA, hB, hno, hdir]
    | multiple =>
      cases hB : geneOf b with
      | found gid2 =>
        refine ⟨[], ?_⟩
        simp [check_and_import, netLoop, hab, hba, hp1, hp2, hr1, hr2, hc1, hc2,
          hA, hB, hno, hdir]
      | notFound =>
        refine ⟨[], ?_⟩
        simp [check_and_import, netLoop, hab, hba, hp1, hp2, hr1, hr2, hc1, hc2,
          hA, hB, hno, hdir]
      | multiple =>
        refine ⟨[], ?_⟩
        simp [check_and_import, netLoop, hab, hba, hp1, hp2, hr1, hr2, hc1, hc2,
          hA, hB, hno, hdir]

/-- C10: a line skipped by the cutoff does not record its gene pair, so a
later line with the same pair proceeds (and is persisted when both genes
resolve); a line skipped because a gene is unresolvable records its pair
before the lookup, so a later line with the same pair raises the
duplicate-pair error even though nothing was persisted for the first. -/
theorem claim_C10 {pf : String → Option ℚ} {M : MLModelN} {geneOf : String → GeneRes}
    (hdr : List String) (a b w1tok s1tok w2tok s2tok : String) {w1 w2 : ℚ}
    (hab : a ≠ b)
    (hp1 : pf (s1tok ++ w1tok) = some w1) (hp2 : pf (s2tok ++ w2tok) = some w2)
    (hr1 : ¬(w1 < -1 ∨ 1 < w1)) (hr2 : ¬(w2 < -1 ∨ 1 < w2))
    (hc2 : ¬ |w2| < M.g2g_edge_cutoff) :
    (∀ gid1 gid2, |w1| < M.g2g_edge_cutoff → geneOf a = .found gid1 →
      geneOf b = .found gid2 →
      check_and_import pf M geneOf []
        [hdr, [a, b, w1tok, s1tok], [a, b, w2tok, s2tok]] = .ok [⟨gid1, gid2, w2⟩]) ∧
    (¬ |w1| < M.g2g_edge_cutoff → (∀ gid, geneOf a ≠ .found gid) →
      check_and_import pf M geneOf []
        [hdr, [a, b, w1tok, s1tok], [a, b, w2tok, s2tok]] =
        .error (.dupPair 3 a b)) := by
  constructor
  · intro gid1 gid2 hc1 hA hB
    simp [check_and_import, netLoop, hab, hp1, hp2, hr1, hr2, hc1, hc2, hA, hB,
      flushIfFull, BULK_SIZE]
  · intro hc1 hga
    cases hA : geneOf a with
    | found gid => exact absurd hA (hga gid)
    | notFound =>
      simp [check_and_import, netLoop, hab, hp1, hp2, hr1, hr2, hc1, hc2, hA]
    | multiple =>
      simp [check_and_import, netLoop, hab, hp1, hp2, hr1, hr2, hc1, hc2, hA]

/-- Witness for C6: reversed pair `gY,gX` after `gX,gY` errors on line 3
for an undirected model and completes for a directed one. -/
theorem claim_C6_witness :
    check_and_import pfW ⟨1 / 5, false⟩ geneOfW []
      [["h"], ["gX", "gY", "0.5", "+"], ["gY", "gX", "0.5", "+"]] =
      .error (.dupPair 3 "gX" "gY") ∧
    ∃ db', check_and_import pfW ⟨1 / 5, true⟩ geneOfW []
      [["h"], ["gX", "gY", "0.5", "+"], ["gY", "gX", "0.5", "+"]] = .ok db' := by
  have habs : ¬ |(1 / 2 : ℚ)| < (1 / 5 : ℚ) := by
    rw [show |(1 / 2 : ℚ)| = 1 / 2 from abs_of_pos (by norm_num)]
    norm_num
  constructor
  · exact (@claim_C6 pfW ⟨1 / 5, false⟩ geneOfW ["h"] "gX" "gY" "0.5" "+" "0.5" "+"
      (1 / 2) (1 / 2) (by decide) (by decide) (by decide) rfl rfl
      (by norm_num) (by norm_num) habs habs).1 rfl
  · exact (@claim_C6 pfW ⟨1 / 5, true⟩ geneOfW ["h"] "gX" "gY" "0.5" "+" "0.5" "+"
      (1 / 2) (1 / 2) (by decide) (by decide) (by decide) rfl rfl
      (by norm_num) (by norm_num) habs habs).2 rfl

/-- Witness for C10: a below-cutoff first line leaves the repeated pair
importable (one edge persisted); an unresolvable-gene first line makes the
repeated pair a duplicate error. -/
theorem claim_C10_witness :
    check_and_import pfW ⟨1 / 5, false⟩ geneOfW []
      [["h"], ["gX", "gY", "0.1", "+"], ["gX", "gY", "0.5", "+"]] =
      .ok [⟨1, 2, 1 / 2⟩] ∧
    check_and_import pfW ⟨1 / 5, false⟩ geneOfW []
      [["h"], ["gZ", "gY", "0.5", "+"], ["gZ", "gY", "0.5", "+"]] =
      .error (.dupPair 3 "gZ" "gY") := by
  have habs : ¬ |(1 / 2 : ℚ)| < (1 / 5 : ℚ) := by
    rw [show |(1 / 2 : ℚ)| = 1 / 2 from abs_of_pos (by norm_num)]
    norm_num
  have habs1 : |(1 / 10 : ℚ)| < (1 / 5 : ℚ) := by
    rw [show |(1 / 10 : ℚ)| = 1 / 10 from abs_of_pos (by norm_num)]
    norm_num
  constructor
  · exact (@claim_C10 pfW ⟨1 / 5, false⟩ geneOfW ["h"] "gX" "gY" "0.1" "+" "0.5" "+"
      (1 / 10) (1 / 2) (by decide) rfl rfl (by norm_num) (by norm_num) habs).1
      1 2 habs1 rfl rfl
  · exact (@claim_C10 pfW ⟨1 / 5, false⟩ geneOfW ["h"] "gZ" "gY" "0.5" "+" "0.5" "+"
      (1 / 2) (1 / 2) (by decide) rfl rfl (by norm_num) (by norm_num) habs).2
      habs (fun gid h => by simp [geneOfW] at h)

end Adage
